import Mathlib

/-!
Verification of the byte-stream copy utility (`homework/cmd/main.go`).

The Go program is shallowly embedded: byte streams are lists of naturals
(each < 256 where it matters), an upstream `io.Reader` is a scripted list
of chunks followed by a terminal error, and the two stateful filters
(`CaseReader`, `TrimReader`) are explicit state-passing functions.  The
filters' `Read` methods recurse after each upstream read, so they are
written with an explicit fuel argument; a fuel of `srcMeasure + 2` is
proved sufficient below.
-/

abbrev Bytes := List Nat

/-- Errors a Go `io.Reader` in this program can surface: `io.EOF`, the
`CreateReader` message `error while skipping bytes`, or an opaque I/O
failure code. -/
inductive GoErr
  | eof
  | skipShort
  | ioFail (code : Nat)
deriving DecidableEq

/-- Second-byte acceptance window of Go's `utf8.DecodeRune`, indexed by the
first byte (the `acceptRanges` table: `0xE0`, `0xED`, `0xF0`, `0xF4` are
special, every other multi-byte starter accepts `0x80..0xBF`). -/
def acceptRange (b0 : Nat) : Nat × Nat :=
  if b0 = 0xE0 then (0xA0, 0xBF)
  else if b0 = 0xED then (0x80, 0x9F)
  else if b0 = 0xF0 then (0x90, 0xBF)
  else if b0 = 0xF4 then (0x80, 0x8F)
  else (0x80, 0xBF)

/-- Model of Go's `utf8.DecodeRune`: returns `(rune, size)`, with
`(0xFFFD, 0)` on empty input and `(0xFFFD, 1)` on any invalid or
incomplete encoding (surrogates and overlong forms rejected via
`acceptRange`). -/
def decodeRune : Bytes → Nat × Nat
  | [] => (0xFFFD, 0)
  | b0 :: tail =>
    if b0 < 0x80 then (b0, 1)
    else if b0 < 0xC2 ∨ 0xF4 < b0 then (0xFFFD, 1)
    else
      match tail with
      | [] => (0xFFFD, 1)
      | b1 :: tail1 =>
        if b1 < (acceptRange b0).1 ∨ (acceptRange b0).2 < b1 then (0xFFFD, 1)
        else if b0 < 0xE0 then (b0 % 32 * 64 + b1 % 64, 2)
        else
          match tail1 with
          | [] => (0xFFFD, 1)
          | b2 :: tail2 =>
            if b2 < 0x80 ∨ 0xBF < b2 then (0xFFFD, 1)
            else if b0 < 0xF0 then (b0 % 16 * 4096 + b1 % 64 * 64 + b2 % 64, 3)
            else
              match tail2 with
              | [] => (0xFFFD, 1)
              | b3 :: _ =>
                if b3 < 0x80 ∨ 0xBF < b3 then (0xFFFD, 1)
                else (b0 % 8 * 262144 + b1 % 64 * 4096 + b2 % 64 * 64 + b3 % 64, 4)

/-- Model of Go's UTF-8 encoding `[]byte(string(r))` for a Unicode scalar
value `r` (the only arguments it receives in this development). -/
def encodeRune (r : Nat) : Bytes :=
  if r < 0x80 then [r]
  else if r < 0x800 then [0xC0 + r / 64, 0x80 + r % 64]
  else if r < 0x10000 then [0xE0 + r / 4096, 0x80 + r / 64 % 64, 0x80 + r % 64]
  else [0xF0 + r / 262144, 0x80 + r / 4096 % 64, 0x80 + r / 64 % 64, 0x80 + r % 64]

/-- Model of Go's `unicode.IsSpace`: the Unicode White_Space code points. -/
def isSpace (r : Nat) : Bool :=
  decide ((9 ≤ r ∧ r ≤ 13) ∨ r = 32 ∨ r = 0x85 ∨ r = 0xA0 ∨ r = 0x1680 ∨
    (0x2000 ≤ r ∧ r ≤ 0x200A) ∨ r = 0x2028 ∨ r = 0x2029 ∨ r = 0x202F ∨
    r = 0x205F ∨ r = 0x3000)

/-- Greedy rune scan used to reason about both filters' scan loops: decode
runes from the front until `utf8.DecodeRune` yields the replacement
character (the loops' `break` condition), returning the decoded runes and
the unconsumed rest.  Fueled; `scanRunes b.length b` completes. -/
def scanRunes : Nat → Bytes → List Nat × Bytes
  | 0, b => ([], b)
  | fuel + 1, b =>
    let d := decodeRune b
    if d.1 = 0xFFFD then ([], b)
    else
      let rec' := scanRunes fuel (b.drop d.2)
      (d.1 :: rec'.1, rec'.2)

/-- Complete greedy scan of a byte list (sufficient fuel supplied). -/
def decodeAll (b : Bytes) : List Nat × Bytes := scanRunes b.length b

/-- Carry-buffer predicate: the buffer's front cannot be consumed by the
filters' scan loops (empty, undecodable, or decoding to U+FFFD, on which
the loops `break`). -/
def stuckCarry (b : Bytes) : Bool := (decodeRune b).1 == 0xFFFD

/-- Scripted upstream `io.Reader`: a list of pending data chunks, then a
terminal error (`eof` for a normal end of stream).  Errors are delivered
with zero bytes, as the file/`LimitReader`/filter chain of this program
does. -/
structure Source where
  chunks : List Bytes
  final : GoErr
deriving DecidableEq

/-- One upstream `Read` into a buffer of length `req`: serve from the head
chunk (splitting it when it is longer than `req`), or report the terminal
error once the chunks are exhausted. -/
def sourceRead (s : Source) (req : Nat) : Bytes × Option GoErr × Source :=
  match s.chunks with
  | [] => ([], some s.final, s)
  | c :: rest =>
    (c.take req, none,
      { chunks := if req < c.length then c.drop req :: rest else rest,
        final := s.final })

/-- Termination measure for the filters' self-recursive `Read`: every
upstream read with `1 ≤ req` strictly decreases it until the chunks run
out. -/
def srcMeasure (s : Source) : Nat := s.chunks.length + (s.chunks.map List.length).sum

/-- Model of `copyFromChecked(dst, src)` for a destination of length
`dstLen`: returns the advanced source slice and the copied length
`min dstLen src.length`; the bytes written to `dst` are
`src.take length`. -/
def copyFromChecked (dstLen : Nat) (src : Bytes) : Bytes × Nat :=
  (src.drop (min dstLen src.length), min dstLen src.length)

/-- State of Go's `CaseReader`: upstream reader, case direction, the
pending-output buffer `mapped` and the carry buffer `buffer`. -/
structure CaseReader where
  reader : Source
  toUpper : Bool
  mapped : Bytes
  buffer : Bytes
deriving DecidableEq

/-- The scan loop of `CaseReader.Read` (lines 103-118): decode runes from
the front of the carry, mapping each through `strings.ToUpper` or
`strings.ToLower` (abstracted as `upB`/`loB`), stopping at the first
`utf8.RuneError`; returns the mapped output and the unconsumed rest. -/
def caseScan (upB loB : Nat → Bytes) (toUpper : Bool) : Nat → Bytes → Bytes × Bytes
  | 0, buf => ([], buf)
  | fuel + 1, buf =>
    let d := decodeRune buf
    if d.1 = 0xFFFD then ([], buf)
    else
      let rec' := caseScan upB loB toUpper fuel (buf.drop d.2)
      ((if toUpper then upB d.1 else loB d.1) ++ rec'.1, rec'.2)

/-- Model of `CaseReader.Read` into a caller buffer of length `req`,
returning the bytes written, the returned error, and the new state.  The
Go method tail-recurses after each upstream read; the explicit fuel bounds
that recursion (`none` = fuel exhausted, which a fuel of
`srcMeasure + 2` never is). -/
def caseRead (upB loB : Nat → Bytes) : Nat → CaseReader → Nat → Option (Bytes × Option GoErr × CaseReader)
  | 0, _, _ => none
  | fuel + 1, cr, req =>
    if cr.mapped.length ≠ 0 then
      let c := copyFromChecked req cr.mapped
      some (cr.mapped.take c.2, none, { cr with mapped := c.1 })
    else
      let u := sourceRead cr.reader req
      match u.2.1 with
      | some e => some (u.1, some e, { cr with reader := u.2.2 })
      | none =>
        let buf := cr.buffer ++ u.1
        let s := caseScan upB loB cr.toUpper (buf.length + 1) buf
        caseRead upB loB fuel
          { cr with reader := u.2.2, mapped := cr.mapped ++ s.1, buffer := s.2 } req

/-- Full drain of a `CaseReader` with caller-buffer size `req`: repeated
`Read` calls, concatenating the delivered bytes until an error is
returned (the copy driver's loop).  Outer fuel bounds the number of
calls; each inner call gets the sufficient fuel `srcMeasure + 2`. -/
def caseDrain (upB loB : Nat → Bytes) : Nat → CaseReader → Nat → Option (Bytes × GoErr)
  | 0, _, _ => none
  | fuel + 1, cr, req =>
    match caseRead upB loB (srcMeasure cr.reader + 2) cr req with
    | none => none
    | some (out, some e, _) => some (out, e)
    | some (out, none, cr') =>
      match caseDrain upB loB fuel cr' req with
      | none => none
      | some (rest, e) => some (out ++ rest, e)

/-- Fresh `CaseReader` over a scripted source ending in `io.EOF`. -/
def mkCase (chunks : List Bytes) (toUpper : Bool) : CaseReader :=
  { reader := { chunks := chunks, final := .eof }, toUpper := toUpper,
    mapped := [], buffer := [] }

/-- State of Go's `TrimReader`: upstream reader, carry buffer, pending
output `trimmed`, and the flag recording whether a non-space character has
been seen. -/
structure TrimReader where
  reader : Source
  buffer : Bytes
  trimmed : Bytes
  skippedSpaces : Bool
deriving DecidableEq

/-- The scan loop of `TrimReader.Read` (lines 144-161), with loop index
`i`, slice start `firstSpacePos` (`fsp`) and the seen-non-space flag;
returns the bytes appended to `trimmed`, the final `firstSpacePos` and the
final flag. -/
def trimScan : Nat → Bytes → Nat → Nat → Bool → Bytes × Nat × Bool
  | 0, _, _, fsp, sk => ([], fsp, sk)
  | fuel + 1, buf, i, fsp, sk =>
    if i < buf.length then
      let d := decodeRune (buf.drop i)
      if d.1 = 0xFFFD then ([], fsp, sk)
      else if isSpace d.1 then trimScan fuel buf (i + d.2) fsp sk
      else if sk then
        let out := (buf.drop fsp).take (i + d.2 - fsp)
        let rec' := trimScan fuel buf (i + d.2) (i + d.2) sk
        (out ++ rec'.1, rec'.2)
      else
        let out := (buf.drop i).take d.2
        let rec' := trimScan fuel buf (i + d.2) (i + d.2) true
        (out ++ rec'.1, rec'.2)
    else ([], fsp, sk)

/-- Model of `TrimReader.Read`, shaped exactly like `caseRead`: deliver
pending `trimmed` bytes first, otherwise read upstream, run the scan loop
from index 0 with `firstSpacePos = 0`, drop the consumed carry prefix and
recurse. -/
def trimRead : Nat → TrimReader → Nat → Option (Bytes × Option GoErr × TrimReader)
  | 0, _, _ => none
  | fuel + 1, tr, req =>
    if tr.trimmed.length ≠ 0 then
      let c := copyFromChecked req tr.trimmed
      some (tr.trimmed.take c.2, none, { tr with trimmed := c.1 })
    else
      let u := sourceRead tr.reader req
      match u.2.1 with
      | some e => some (u.1, some e, { tr with reader := u.2.2 })
      | none =>
        let buf := tr.buffer ++ u.1
        let s := trimScan (buf.length + 1) buf 0 0 tr.skippedSpaces
        trimRead fuel
          { tr with
            reader := u.2.2
            trimmed := tr.trimmed ++ s.1
            buffer := buf.drop s.2.1
            skippedSpaces := s.2.2 } req

/-- Full drain of a `TrimReader`, as `caseDrain`. -/
def trimDrain : Nat → TrimReader → Nat → Option (Bytes × GoErr)
  | 0, _, _ => none
  | fuel + 1, tr, req =>
    match trimRead (srcMeasure tr.reader + 2) tr req with
    | none => none
    | some (out, some e, _) => some (out, e)
    | some (out, none, tr') =>
      match trimDrain fuel tr' req with
      | none => none
      | some (rest, e) => some (out ++ rest, e)

/-- Fresh `TrimReader` over a scripted source ending in `io.EOF`. -/
def mkTrim (chunks : List Bytes) : TrimReader :=
  { reader := { chunks := chunks, final := .eof }, buffer := [],
    trimmed := [], skippedSpaces := false }

/-- Concrete instance of `[]byte(strings.ToUpper(string(r)))` on the
domain exercised by the concrete scenarios: for ASCII code points and for
code points with no upper-case mapping (such as U+FFFD or CJK ideographs
like U+4E00) Go's `strings.ToUpper` is exactly this subtract-32-on-a-z map
followed by UTF-8 re-encoding; outside that domain (e.g. U+00E9, which Go
maps to U+00C9) this stand-in leaves the rune unchanged, so every concrete
witness below sticks to the agreement domain. -/
def toUpperBytes (r : Nat) : Bytes :=
  encodeRune (if 97 ≤ r ∧ r ≤ 122 then r - 32 else r)

/-- Concrete instance of `[]byte(strings.ToLower(string(r)))`, the ASCII
add-32-on-A-Z map followed by UTF-8 re-encoding; like `toUpperBytes` it
coincides with Go exactly on ASCII and on code points with no case
mapping, and concrete witnesses stay on that domain. -/
def toLowerBytes (r : Nat) : Bytes :=
  encodeRune (if 65 ≤ r ∧ r ≤ 90 then r + 32 else r)

/-- Per-rune map applied by `CaseReader.Read`'s loop body, selected by the
`toUpper` flag. -/
def caseMap (upB loB : Nat → Bytes) (toUpper : Bool) (r : Nat) : Bytes :=
  if toUpper then upB r else loB r

/-- Per-rune maps concatenated over a rune list. -/
def caseMapJoin (upB loB : Nat → Bytes) (toUpper : Bool) (rs : List Nat) : Bytes :=
  (rs.map (caseMap upB loB toUpper)).flatten

/-- Modelled from the spec: Go's rune iteration over a whole string, with
each invalid or incomplete encoding consuming one byte and yielding the
replacement character U+FFFD (the semantics of `strings.ToUpper` /
`strings.ToLower` applied to the entire input at once). -/
def replaceDecode : Nat → Bytes → List Nat
  | 0, _ => []
  | _ + 1, [] => []
  | fuel + 1, b =>
    let d := decodeRune b
    d.1 :: replaceDecode fuel (b.drop (max d.2 1))

/-- Modelled from the spec: the whole-input case transform — decode the
entire input as one string, map every character through the configured
case map, and re-encode. -/
def specCaseFold (upB loB : Nat → Bytes) (toUpper : Bool) (b : Bytes) : Bytes :=
  caseMapJoin upB loB toUpper (replaceDecode b.length b)

/-- Total output a `CaseReader` state can still deliver: pending mapped
bytes, then the transform of every rune the scan loop will ever consume
from the carry buffer followed by the remaining upstream bytes. -/
def streamOut (upB loB : Nat → Bytes) (cr : CaseReader) : Bytes :=
  cr.mapped ++ caseMapJoin upB loB cr.toUpper
    (decodeAll (cr.buffer ++ cr.reader.chunks.flatten)).1

/-- Membership test of Go's `convMap` in `validatedConvs`. -/
def convAllowed (v : String) : Bool :=
  v == "lower_case" || v == "upper_case" || v == "trim_spaces"

/-- Error cases of `validatedConvs` (`ErrInvalidConv` with the two message
variants). -/
inductive ConvError
  | unknown (val : String)
  | conflict
deriving DecidableEq

/-- The validation loop of `validatedConvs` (lines 38-46): reject the
first unknown name, otherwise accumulate the `hasLower`/`hasUpper`
flags. -/
def convLoop : List String → Bool → Bool → Except ConvError (Bool × Bool)
  | [], hasLower, hasUpper => .ok (hasLower, hasUpper)
  | val :: rest, hasLower, hasUpper =>
    if ¬ convAllowed val then .error (.unknown val)
    else if val == "lower_case" then convLoop rest true hasUpper
    else if val == "upper_case" then convLoop rest hasLower true
    else convLoop rest hasLower hasUpper

/-- Model of `validatedConvs` over the comma-split value list (the
`strings.Split` of the CLI layer is out of scope; an empty `-conv` string
corresponds to the empty list, which Go accepts before splitting). -/
def validatedConvs (convValues : List String) : Except ConvError (List String) :=
  if convValues.length = 0 then .ok []
  else
    match convLoop convValues false false with
    | .error e => .error e
    | .ok flags =>
      if flags.1 ∧ flags.2 then .error .conflict else .ok convValues

/-- Reinterpretation of a `uint64` value as Go's `int64`, as performed by
the cast `int64(opts.Offset)`: values of `2^63` and above wrap to
negative. -/
def toInt64 (u : Nat) : Int :=
  if u < 2 ^ 63 then (u : Int) else (u : Int) - 2 ^ 64

/-- Model of `io.CopyN(io.Discard, reader, count)` over a byte-list source
with a signed count: for `count ≤ 0` the inner `LimitReader` yields
end-of-stream at once, so nothing is copied and no error is reported; for
a positive count the result is `(copied, err, rest)` with `err = io.EOF`
when the source runs out before `count` bytes (`io.Discard` never
fails). -/
def copyN (src : Bytes) (count : Int) : Nat × Option GoErr × Bytes :=
  if count ≤ 0 then (0, none, src)
  else if count ≤ (src.length : Int) then (count.toNat, none, src.drop count.toNat)
  else (src.length, some .eof, [])

/-- The offset-skipping part of `CreateReader` (lines 180-186): discard
`int64(opts.Offset)` bytes via `io.CopyN` — the `uint64` offset is
reinterpreted as a signed `int64` by the cast — propagating the copy
error, then apply the `n < int64(opts.Offset)` re-check (dead for
non-negative counts, and false for wrapped negative ones); on success the
remaining source bytes feed the `LimitReader` and the filter chain. -/
def createReaderSkip (src : Bytes) (offset : Nat) : Except GoErr Bytes :=
  let c := copyN src (toInt64 offset)
  match c.2.1 with
  | some e => .error e
  | none => if (c.1 : Int) < toInt64 offset then .error .skipShort else .ok c.2.2

/-- Error classes of `os.Stat` relevant to `createWriter`: the path does
not exist, or some other stat failure.  A present file yields no error. -/
inductive StatErr
  | notExist
  | other (code : Nat)
deriving DecidableEq

/-- Model of `os.IsNotExist` applied to an optional `os.Stat` error. -/
def isNotExist : Option StatErr → Bool
  | some .notExist => true
  | _ => false

/-- Values `createWriter` can produce for the writer. -/
inductive GoWriter
  | stdoutW
  | createdFile (path : String)
  | nilWriter
deriving DecidableEq

/-- Model of `createWriter` (lines 206-217): empty path is stdout;
otherwise if `os.Stat`'s error is not a not-exist error the function
returns `nil` together with that same stat error (which is `nil` when the
file exists); otherwise the file is created.  `stat` is the `os.Stat`
result for the path: `none` when the file exists. -/
def createWriter (toPath : String) (stat : Option StatErr) : GoWriter × Option StatErr :=
  if toPath == "" then (.stdoutW, none)
  else if ¬ isNotExist stat then (.nilWriter, stat)
  else (.createdFile toPath, none)

/-- Phases of `main` in order; each phase exits the process with code 1 on
a non-nil error before the next phase runs. -/
inductive MainPhase
  | flags
  | readerPhase
  | writerPhase
deriving DecidableEq

/-- Model of `main`'s sequencing (lines 219-243): flag validation, then
reader construction over the source bytes, then writer creation; a phase
error aborts before the later phases (and in particular before the copy
loop).  The copy loop itself is modelled elsewhere via the drains. -/
def mainPhases (convValues : List String) (src : Bytes) (offset : Nat)
    (toPath : String) (stat : Option StatErr) : Except MainPhase Unit :=
  match validatedConvs convValues with
  | .error _ => .error .flags
  | .ok _ =>
    match createReaderSkip src offset with
    | .error _ => .error .readerPhase
    | .ok _ =>
      match createWriter toPath stat with
      | (_, some _) => .error .writerPhase
      | (_, none) => .ok ()

/-- Byte streams whose decodable characters are all whitespace (the scan
loops classify exactly the runes `decodeAll` yields). -/
def wsRunes (b : Bytes) : Prop := ∀ r ∈ (decodeAll b).1, isSpace r = true

/-- Modelled from the spec (amended trim behaviour): the whole-input
whitespace-trim transform of a byte stream.  Characters are decoded
greedily until the stream sticks (undecodable bytes, or a literal U+FFFD,
where the filter's scan loop stops for good); whitespace before the first
non-whitespace character is dropped; once a non-whitespace character has
been seen (`sk`), a whitespace character is emitted verbatim exactly when
another non-whitespace character follows within the decodable prefix — so
every internal whitespace run passes through unchanged — and the trailing
whitespace run, together with everything from the stuck point on, is
dropped. -/
def trimSpec : Nat → Bytes → Bool → Bytes
  | 0, _, _ => []
  | fuel + 1, b, sk =>
    let d := decodeRune b
    if d.1 = 0xFFFD then []
    else if isSpace d.1 then
      if sk then
        if trimSpec fuel (b.drop d.2) sk = [] then []
        else b.take d.2 ++ trimSpec fuel (b.drop d.2) sk
      else trimSpec fuel (b.drop d.2) sk
    else b.take d.2 ++ trimSpec fuel (b.drop d.2) true

/-- Whole-input trim transform with sufficient fuel supplied. -/
def trimSpecFrom (b : Bytes) (sk : Bool) : Bytes := trimSpec b.length b sk

/-- Byte segments that decode completely into whitespace characters. -/
def spaceSeg (S : Bytes) : Prop :=
  (decodeAll S).2 = [] ∧ ∀ r ∈ (decodeAll S).1, isSpace r = true

/-- Shape of the trim filter's carry buffer: a fully-decodable whitespace
segment (pending, awaiting a later non-whitespace character) followed by a
stuck tail. -/
def trimCarryOK (b : Bytes) : Prop :=
  ∃ S T, b = S ++ T ∧ spaceSeg S ∧ stuckCarry T = true

/-- Total output a `TrimReader` state can still deliver: pending trimmed
bytes, then the whole-input trim transform of the carry buffer followed by
all remaining upstream bytes, evaluated from the current seen-non-space
flag. -/
def trimStreamOut (tr : TrimReader) : Bytes :=
  tr.trimmed ++ trimSpecFrom (tr.buffer ++ tr.reader.chunks.flatten) tr.skippedSpaces

theorem decodeRune_size_pos (b : Bytes) (h : (decodeRune b).1 ≠ 0xFFFD) :
    1 ≤ (decodeRune b).2 := by
  rcases b with _ | ⟨b0, _ | ⟨b1, _ | ⟨b2, _ | ⟨b3, rest⟩⟩⟩⟩ <;>
    simp only [decodeRune] at h ⊢ <;>
    first
      | exact absurd rfl h
      | (split_ifs at h ⊢ <;> simp_all)

theorem decodeRune_size_le (b : Bytes) (h : (decodeRune b).1 ≠ 0xFFFD) :
    (decodeRune b).2 ≤ b.length := by
  rcases b with _ | ⟨b0, _ | ⟨b1, _ | ⟨b2, _ | ⟨b3, rest⟩⟩⟩⟩ <;>
    simp only [decodeRune] at h ⊢ <;>
    first
      | exact absurd rfl h
      | (split_ifs at h ⊢ <;> simp_all)

theorem decodeRune_take (b x : Bytes) (h : (decodeRune b).1 ≠ 0xFFFD) :
    decodeRune (b.take (decodeRune b).2 ++ x) = decodeRune b := by
  rcases b with _ | ⟨b0, tail⟩
  · simp [decodeRune] at h
  · by_cases h0 : b0 < 0x80
    · simp [decodeRune, h0, List.take_succ_cons]
    · by_cases h1 : b0 < 0xC2 ∨ 0xF4 < b0
      · simp [decodeRune, h0, h1] at h
      · rcases tail with _ | ⟨b1, tail1⟩
        · simp [decodeRune, h0, h1] at h
        · by_cases h2 : b1 < (acceptRange b0).1 ∨ (acceptRange b0).2 < b1
          · simp [decodeRune, h0, h1, h2] at h
          · by_cases h3 : b0 < 0xE0
            · simp [decodeRune, h0, h1, h2, h3, List.take_succ_cons]
            · rcases tail1 with _ | ⟨b2, tail2⟩
              · simp [decodeRune, h0, h1, h2, h3] at h
              · by_cases h4 : b2 < 0x80 ∨ 0xBF < b2
                · simp [decodeRune, h0, h1, h2, h3, h4] at h
                · by_cases h5 : b0 < 0xF0
                  · simp [decodeRune, h0, h1, h2, h3, h4, h5, List.take_succ_cons]
                  · rcases tail2 with _ | ⟨b3, rest⟩
                    · simp [decodeRune, h0, h1, h2, h3, h4, h5] at h
                    · by_cases h6 : b3 < 0x80 ∨ 0xBF < b3
                      · simp [decodeRune, h0, h1, h2, h3, h4, h5, h6] at h
                      · simp [decodeRune, h0, h1, h2, h3, h4, h5, h6,
                          List.take_succ_cons]

theorem decodeRune_append (b c : Bytes) (h : (decodeRune b).1 ≠ 0xFFFD) :
    decodeRune (b ++ c) = decodeRune b := by
  have ht := decodeRune_take b (b.drop (decodeRune b).2 ++ c) h
  rwa [← List.append_assoc, List.take_append_drop] at ht

theorem scanRunes_nil (f : Nat) : scanRunes f [] = ([], []) := by
  cases f <;> simp [scanRunes, decodeRune]

theorem scanRunes_congr (f : Nat) : ∀ g b, List.length b ≤ f → List.length b ≤ g →
    scanRunes f b = scanRunes g b := by
  induction f with
  | zero =>
    intro g b hf _
    have hb : b = [] := List.eq_nil_of_length_eq_zero (Nat.le_zero.mp hf)
    subst hb
    rw [scanRunes_nil, scanRunes_nil]
  | succ f ih =>
    intro g b hf hg
    cases g with
    | zero =>
      have hb : b = [] := List.eq_nil_of_length_eq_zero (Nat.le_zero.mp hg)
      subst hb
      rw [scanRunes_nil, scanRunes_nil]
    | succ g =>
      by_cases hd : (decodeRune b).1 = 0xFFFD
      · simp [scanRunes, hd]
      · have hpos := decodeRune_size_pos b hd
        have hlen : (b.drop (decodeRune b).2).length ≤ f := by
          rw [List.length_drop]; omega
        have hlen2 : (b.drop (decodeRune b).2).length ≤ g := by
          rw [List.length_drop]; omega
        simp only [scanRunes, hd, if_neg (by simp [hd] : ¬ (decodeRune b).1 = 0xFFFD)]
        rw [ih g _ hlen hlen2]

theorem decodeAll_nil : decodeAll [] = ([], []) := rfl

theorem decodeAll_stuck (b : Bytes) (h : (decodeRune b).1 = 0xFFFD) :
    decodeAll b = ([], b) := by
  unfold decodeAll
  cases hb : b.length with
  | zero =>
    have : b = [] := List.eq_nil_of_length_eq_zero hb
    subst this
    rfl
  | succ n => simp [scanRunes, h]

theorem decodeAll_cons (b : Bytes) (h : (decodeRune b).1 ≠ 0xFFFD) :
    decodeAll b = ((decodeRune b).1 :: (decodeAll (b.drop (decodeRune b).2)).1,
      (decodeAll (b.drop (decodeRune b).2)).2) := by
  have hpos := decodeRune_size_pos b h
  have hle := decodeRune_size_le b h
  have hlen : 1 ≤ b.length := le_trans hpos hle
  obtain ⟨n, hn⟩ : ∃ n, b.length = n + 1 := ⟨b.length - 1, by omega⟩
  unfold decodeAll
  rw [hn]
  simp only [scanRunes, if_neg h]
  have hcong : scanRunes n (b.drop (decodeRune b).2) =
      scanRunes (b.drop (decodeRune b).2).length (b.drop (decodeRune b).2) := by
    exact scanRunes_congr n _ _ (by rw [List.length_drop]; omega) (le_refl _)
  rw [hcong]

theorem decodeAll_append (f : Nat) : ∀ a b : Bytes, a.length ≤ f →
    (decodeAll a).2 = [] →
    decodeAll (a ++ b) = ((decodeAll a).1 ++ (decodeAll b).1, (decodeAll b).2) := by
  induction f with
  | zero =>
    intro a b ha _
    have hb : a = [] := List.eq_nil_of_length_eq_zero (Nat.le_zero.mp ha)
    subst hb
    simp [decodeAll_nil]
  | succ f ih =>
    intro a b ha h2
    by_cases hd : (decodeRune a).1 = 0xFFFD
    · have hst := decodeAll_stuck a hd
      rw [hst] at h2
      subst h2
      simp [decodeAll_nil]
    · have hcons := decodeAll_cons a hd
      have hdab : decodeRune (a ++ b) = decodeRune a := decodeRune_append a b hd
      have hconsab := decodeAll_cons (a ++ b) (by rw [hdab]; exact hd)
      have hdrop : (a ++ b).drop (decodeRune a).2 =
          a.drop (decodeRune a).2 ++ b :=
        List.drop_append_of_le_length (decodeRune_size_le a hd)
      have hpos := decodeRune_size_pos a hd
      have h2' : (decodeAll (a.drop (decodeRune a).2)).2 = [] := by
        rw [hcons] at h2
        exact h2
      have hlen : (a.drop (decodeRune a).2).length ≤ f := by
        rw [List.length_drop]; omega
      rw [hconsab, hdab, hdrop, ih _ b hlen h2', hcons]
      simp

theorem decodeAll_split (f : Nat) : ∀ a : Bytes, a.length ≤ f →
    ∃ pre, a = pre ++ (decodeAll a).2 ∧ decodeAll pre = ((decodeAll a).1, []) := by
  induction f with
  | zero =>
    intro a ha
    have hb : a = [] := List.eq_nil_of_length_eq_zero (Nat.le_zero.mp ha)
    subst hb
    exact ⟨[], by simp [decodeAll_nil]⟩
  | succ f ih =>
    intro a ha
    by_cases hd : (decodeRune a).1 = 0xFFFD
    · refine ⟨[], ?_, ?_⟩
      · simp [decodeAll_stuck a hd]
      · simp [decodeAll_stuck a hd, decodeAll_nil]
    · have hcons := decodeAll_cons a hd
      have hpos := decodeRune_size_pos a hd
      have hle := decodeRune_size_le a hd
      have hlen : (a.drop (decodeRune a).2).length ≤ f := by
        rw [List.length_drop]; omega
      obtain ⟨pre, hpre1, hpre2⟩ := ih (a.drop (decodeRune a).2) hlen
      refine ⟨a.take (decodeRune a).2 ++ pre, ?_, ?_⟩
      · rw [hcons]
        conv_lhs => rw [← List.take_append_drop (decodeRune a).2 a]
        rw [List.append_assoc]
        exact congrArg _ hpre1
      · have htk := decodeRune_take a pre hd
        have hlt : (a.take (decodeRune a).2).length = (decodeRune a).2 := by
          rw [List.length_take]; omega
        have hxcons := decodeAll_cons (a.take (decodeRune a).2 ++ pre)
          (by rw [htk]; exact hd)
        rw [hxcons, htk]
        have hdp : (a.take (decodeRune a).2 ++ pre).drop (decodeRune a).2 = pre := by
          rw [List.drop_append_of_le_length (le_of_eq hlt.symm), List.drop_of_length_le (le_of_eq hlt)]
          simp
        rw [hdp, hpre2, hcons]

theorem decodeAll_mono (f : Nat) : ∀ x y : Bytes, ∀ r : Nat, x.length ≤ f →
    r ∈ (decodeAll x).1 → r ∈ (decodeAll (x ++ y)).1 := by
  induction f with
  | zero =>
    intro x y r hx hr
    have hb : x = [] := List.eq_nil_of_length_eq_zero (Nat.le_zero.mp hx)
    subst hb
    simp [decodeAll_nil] at hr
  | succ f ih =>
    intro x y r hx hr
    by_cases hd : (decodeRune x).1 = 0xFFFD
    · rw [decodeAll_stuck x hd] at hr
      simp at hr
    · have hcons := decodeAll_cons x hd
      have hdab : decodeRune (x ++ y) = decodeRune x := decodeRune_append x y hd
      have hconsab := decodeAll_cons (x ++ y) (by rw [hdab]; exact hd)
      have hpos := decodeRune_size_pos x hd
      have hle := decodeRune_size_le x hd
      have hdrop : (x ++ y).drop (decodeRune x).2 =
          x.drop (decodeRune x).2 ++ y :=
        List.drop_append_of_le_length hle
      rw [hcons] at hr
      rw [hconsab, hdab, hdrop]
      rcases List.mem_cons.mp hr with h | h
      · exact List.mem_cons.mpr (Or.inl h)
      · refine List.mem_cons.mpr (Or.inr ?_)
        exact ih _ y r (by rw [List.length_drop]; omega) h

theorem caseMapJoin_nil (upB loB : Nat → Bytes) (t : Bool) :
    caseMapJoin upB loB t [] = [] := rfl

theorem caseMapJoin_cons (upB loB : Nat → Bytes) (t : Bool) (r : Nat) (rs : List Nat) :
    caseMapJoin upB loB t (r :: rs) = caseMap upB loB t r ++ caseMapJoin upB loB t rs := by
  simp [caseMapJoin]

theorem caseMapJoin_append (upB loB : Nat → Bytes) (t : Bool) (rs ss : List Nat) :
    caseMapJoin upB loB t (rs ++ ss) =
      caseMapJoin upB loB t rs ++ caseMapJoin upB loB t ss := by
  simp [caseMapJoin]

theorem sourceRead_nil (s : Source) (req : Nat) (h : s.chunks = []) :
    sourceRead s req = ([], some s.final, s) := by
  rcases s with ⟨chunks, final⟩
  simp only at h
  subst h
  simp [sourceRead]

theorem sourceRead_cons (s : Source) (req : Nat) (c : Bytes) (rest : List Bytes)
    (h : s.chunks = c :: rest) :
    sourceRead s req = (c.take req, none,
      { chunks := if req < c.length then c.drop req :: rest else rest,
        final := s.final }) := by
  rcases s with ⟨chunks, final⟩
  simp only at h
  subst h
  simp [sourceRead]

theorem sourceRead_flatten (s : Source) (req : Nat) :
    s.chunks.flatten = (sourceRead s req).1 ++ (sourceRead s req).2.2.chunks.flatten := by
  rcases hc : s.chunks with _ | ⟨c, rest⟩
  · rw [sourceRead_nil s req hc]
    simp [hc]
  · rw [sourceRead_cons s req c rest hc]
    by_cases hl : req < c.length
    · simp [hc, hl, ← List.append_assoc]
    · simp [hc, hl, List.take_of_length_le (Nat.not_lt.mp hl)]

theorem sourceRead_final (s : Source) (req : Nat) :
    (sourceRead s req).2.2.final = s.final := by
  rcases hc : s.chunks with _ | ⟨c, rest⟩
  · rw [sourceRead_nil s req hc]
  · rw [sourceRead_cons s req c rest hc]

theorem sourceRead_measure (s : Source) (req : Nat) (h1 : 1 ≤ req)
    (hc : s.chunks ≠ []) :
    srcMeasure (sourceRead s req).2.2 < srcMeasure s := by
  rcases hcc : s.chunks with _ | ⟨c, rest⟩
  · exact absurd hcc hc
  · rw [sourceRead_cons s req c rest hcc]
    by_cases hl : req < c.length
    · simp only [srcMeasure, hl, if_pos hl, hcc]
      simp [List.length_drop]
      omega
    · simp only [srcMeasure, if_neg hl, hcc]
      simp
      omega

theorem caseScan_eq (upB loB : Nat → Bytes) (t : Bool) (f : Nat) : ∀ b : Bytes,
    b.length ≤ f →
    caseScan upB loB t f b = (caseMapJoin upB loB t (decodeAll b).1, (decodeAll b).2) := by
  induction f with
  | zero =>
    intro b hb
    have : b = [] := List.eq_nil_of_length_eq_zero (Nat.le_zero.mp hb)
    subst this
    simp [caseScan, decodeAll_nil, caseMapJoin_nil]
  | succ f ih =>
    intro b hb
    by_cases hd : (decodeRune b).1 = 0xFFFD
    · simp [caseScan, hd, decodeAll_stuck b hd, caseMapJoin_nil]
    · have hpos := decodeRune_size_pos b hd
      have hcons := decodeAll_cons b hd
      simp only [caseScan, if_neg hd]
      rw [ih _ (by rw [List.length_drop]; omega)]
      rw [hcons, caseMapJoin_cons]
      simp [caseMap]

theorem caseRead_conserve (upB loB : Nat → Bytes) (f : Nat) : ∀ cr req out err cr',
    caseRead upB loB f cr req = some (out, err, cr') →
    cr'.reader.final = cr.reader.final ∧ cr'.toUpper = cr.toUpper ∧
    ∃ consumed processed : Bytes,
      cr.reader.chunks.flatten = consumed ++ cr'.reader.chunks.flatten ∧
      cr.buffer ++ consumed = processed ++ cr'.buffer ∧
      (decodeAll processed).2 = [] ∧
      out ++ cr'.mapped = cr.mapped ++ caseMapJoin upB loB cr.toUpper (decodeAll processed).1 := by
  induction f with
  | zero =>
    intro cr req out err cr' h
    simp [caseRead] at h
  | succ f ih =>
    intro cr req out err cr' h
    by_cases hm : cr.mapped = []
    · simp only [caseRead, if_neg (by simp [hm] : ¬ cr.mapped.length ≠ 0)] at h
      rcases hc : cr.reader.chunks with _ | ⟨c, rest⟩
      · rw [sourceRead_nil cr.reader req hc] at h
        simp only [Option.some.injEq, Prod.mk.injEq] at h
        obtain ⟨h1, h2, h3⟩ := h
        subst h1
        subst h2
        subst h3
        refine ⟨rfl, rfl, [], [], by simp [hc], by simp, by simp [decodeAll_nil], ?_⟩
        simp [hm, decodeAll_nil, caseMapJoin_nil]
      · rw [sourceRead_cons cr.reader req c rest hc] at h
        simp only at h
        have hscan := caseScan_eq upB loB cr.toUpper
          ((cr.buffer ++ c.take req).length + 1) (cr.buffer ++ c.take req)
          (Nat.le_succ _)
        rw [hscan] at h
        obtain ⟨hf, ht, consumed₂, processed₂, hfl₂, hbuf₂, hdec₂, hout₂⟩ :=
          ih _ req out err cr' h
        simp only at hf ht hfl₂ hbuf₂ hdec₂ hout₂
        have hsf := sourceRead_flatten cr.reader req
        rw [sourceRead_cons cr.reader req c rest hc, hc] at hsf
        simp only at hsf
        obtain ⟨pre, hpre1, hpre2⟩ :=
          decodeAll_split (cr.buffer ++ c.take req).length (cr.buffer ++ c.take req)
            (le_refl _)
        have hpre2a : (decodeAll pre).1 = (decodeAll (cr.buffer ++ c.take req)).1 := by
          rw [hpre2]
        have hpre2b : (decodeAll pre).2 = [] := by
          rw [hpre2]
        refine ⟨by rw [hf], by rw [ht], c.take req ++ consumed₂, pre ++ processed₂,
          ?_, ?_, ?_, ?_⟩
        · rw [hsf, hfl₂, List.append_assoc]
        · calc cr.buffer ++ (c.take req ++ consumed₂)
              = (cr.buffer ++ c.take req) ++ consumed₂ := by
                rw [List.append_assoc]
            _ = (pre ++ (decodeAll (cr.buffer ++ c.take req)).2) ++ consumed₂ := by
                rw [← hpre1]
            _ = pre ++ ((decodeAll (cr.buffer ++ c.take req)).2 ++ consumed₂) := by
                rw [List.append_assoc]
            _ = pre ++ (processed₂ ++ cr'.buffer) := by rw [hbuf₂]
            _ = (pre ++ processed₂) ++ cr'.buffer := by rw [List.append_assoc]
        · rw [decodeAll_append pre.length pre processed₂ (le_refl _) hpre2b]
          exact hdec₂
        · rw [decodeAll_append pre.length pre processed₂ (le_refl _) hpre2b]
          simp only
          rw [caseMapJoin_append, hout₂, hpre2a, List.append_assoc]
    · simp only [caseRead,
        if_pos (by simpa [List.length_eq_zero] using hm : cr.mapped.length ≠ 0)] at h
      simp only [Option.some.injEq, Prod.mk.injEq] at h
      obtain ⟨h1, h2, h3⟩ := h
      subst h1
      subst h2
      subst h3
      refine ⟨rfl, rfl, [], [], by simp, by simp [copyFromChecked], by simp [decodeAll_nil], ?_⟩
      simp [copyFromChecked, decodeAll_nil, caseMapJoin_nil]

theorem decodeAll_rest (f : Nat) : ∀ b : Bytes, b.length ≤ f →
    stuckCarry (decodeAll b).2 = true := by
  induction f with
  | zero =>
    intro b hb
    have : b = [] := List.eq_nil_of_length_eq_zero (Nat.le_zero.mp hb)
    subst this
    simp [decodeAll_nil, stuckCarry, decodeRune]
  | succ f ih =>
    intro b hb
    by_cases hd : (decodeRune b).1 = 0xFFFD
    · rw [decodeAll_stuck b hd]
      simp [stuckCarry, hd]
    · rw [decodeAll_cons b hd]
      have hpos := decodeRune_size_pos b hd
      exact ih _ (by rw [List.length_drop]; omega)

theorem stuckCarry_runes (b : Bytes) (h : stuckCarry b = true) :
    (decodeAll b).1 = [] := by
  have hd : (decodeRune b).1 = 0xFFFD := by
    simpa [stuckCarry] using h
  rw [decodeAll_stuck b hd]

theorem caseRead_err (upB loB : Nat → Bytes) (f : Nat) : ∀ cr req out e cr',
    caseRead upB loB f cr req = some (out, some e, cr') →
    e = cr.reader.final ∧ out = [] ∧ cr.mapped = [] ∧ cr'.mapped = [] ∧
    cr'.reader.chunks = [] := by
  induction f with
  | zero =>
    intro cr req out e cr' h
    simp [caseRead] at h
  | succ f ih =>
    intro cr req out e cr' h
    by_cases hm : cr.mapped = []
    · simp only [caseRead, if_neg (by simp [hm] : ¬ cr.mapped.length ≠ 0)] at h
      rcases hc : cr.reader.chunks with _ | ⟨c, rest⟩
      · rw [sourceRead_nil cr.reader req hc] at h
        simp only [Option.some.injEq, Prod.mk.injEq] at h
        obtain ⟨h1, h2, h3⟩ := h
        subst h1
        subst h3
        refine ⟨by simp [← h2], rfl, hm, by simp [hm], by simp [hc]⟩
      · rw [sourceRead_cons cr.reader req c rest hc] at h
        simp only at h
        obtain ⟨he, ho, _, hm', hch⟩ := ih _ req out e cr' h
        simp only at he
        exact ⟨he, ho, hm, hm', hch⟩
    · simp only [caseRead,
        if_pos (by simpa [List.length_eq_zero] using hm : cr.mapped.length ≠ 0)] at h
      simp only [Option.some.injEq, Prod.mk.injEq] at h
      obtain ⟨_, h2, _⟩ := h
      exact absurd h2 (by simp)

theorem caseRead_progress (upB loB : Nat → Bytes) (f : Nat) : ∀ cr req out cr',
    caseRead upB loB f cr req = some (out, none, cr') → 1 ≤ req → out ≠ [] := by
  induction f with
  | zero =>
    intro cr req out cr' h _
    simp [caseRead] at h
  | succ f ih =>
    intro cr req out cr' h hreq
    by_cases hm : cr.mapped = []
    · simp only [caseRead, if_neg (by simp [hm] : ¬ cr.mapped.length ≠ 0)] at h
      rcases hc : cr.reader.chunks with _ | ⟨c, rest⟩
      · rw [sourceRead_nil cr.reader req hc] at h
        simp at h
      · rw [sourceRead_cons cr.reader req c rest hc] at h
        simp only at h
        exact ih _ req out cr' h hreq
    · simp only [caseRead,
        if_pos (by simpa [List.length_eq_zero] using hm : cr.mapped.length ≠ 0)] at h
      simp only [Option.some.injEq, Prod.mk.injEq] at h
      obtain ⟨h1, _, _⟩ := h
      have hlen : 0 < cr.mapped.length := List.length_pos.mpr hm
      intro hout
      rw [← h1] at hout
      have hlen0 := congrArg List.length hout
      simp only [copyFromChecked, List.length_take, List.length_nil] at hlen0
      omega

theorem caseRead_stuck (upB loB : Nat → Bytes) (f : Nat) : ∀ cr req out err cr',
    caseRead upB loB f cr req = some (out, err, cr') →
    stuckCarry cr.buffer = true → stuckCarry cr'.buffer = true := by
  induction f with
  | zero =>
    intro cr req out err cr' h _
    simp [caseRead] at h
  | succ f ih =>
    intro cr req out err cr' h hst
    by_cases hm : cr.mapped = []
    · simp only [caseRead, if_neg (by simp [hm] : ¬ cr.mapped.length ≠ 0)] at h
      rcases hc : cr.reader.chunks with _ | ⟨c, rest⟩
      · rw [sourceRead_nil cr.reader req hc] at h
        simp only [Option.some.injEq, Prod.mk.injEq] at h
        obtain ⟨_, _, h3⟩ := h
        subst h3
        exact hst
      · rw [sourceRead_cons cr.reader req c rest hc] at h
        simp only at h
        have hscan := caseScan_eq upB loB cr.toUpper
          ((cr.buffer ++ c.take req).length + 1) (cr.buffer ++ c.take req)
          (Nat.le_succ _)
        rw [hscan] at h
        refine ih _ req out err cr' h ?_
        simp only
        exact decodeAll_rest (cr.buffer ++ c.take req).length _ (le_refl _)
    · simp only [caseRead,
        if_pos (by simpa [List.length_eq_zero] using hm : cr.mapped.length ≠ 0)] at h
      simp only [Option.some.injEq, Prod.mk.injEq] at h
      obtain ⟨_, _, h3⟩ := h
      subst h3
      exact hst

theorem caseRead_total (upB loB : Nat → Bytes) (f : Nat) : ∀ cr req,
    1 ≤ req → srcMeasure cr.reader + 2 ≤ f →
    ∃ res, caseRead upB loB f cr req = some res := by
  induction f with
  | zero =>
    intro cr req _ hf
    omega
  | succ f ih =>
    intro cr req hreq hf
    by_cases hm : cr.mapped = []
    · rcases hc : cr.reader.chunks with _ | ⟨c, rest⟩
      · refine ⟨([], some cr.reader.final, { cr with reader := cr.reader }), ?_⟩
        simp only [caseRead, if_neg (by simp [hm] : ¬ cr.mapped.length ≠ 0)]
        rw [sourceRead_nil cr.reader req hc]
      · have hmeas : srcMeasure (sourceRead cr.reader req).2.2 < srcMeasure cr.reader :=
          sourceRead_measure cr.reader req hreq (by simp [hc])
        rw [sourceRead_cons cr.reader req c rest hc] at hmeas
        obtain ⟨res, hres⟩ := ih
          (CaseReader.mk
            (Source.mk (if req < c.length then c.drop req :: rest else rest)
              cr.reader.final)
            cr.toUpper
            (cr.mapped ++ (caseScan upB loB cr.toUpper
              ((cr.buffer ++ c.take req).length + 1) (cr.buffer ++ c.take req)).1)
            ((caseScan upB loB cr.toUpper
              ((cr.buffer ++ c.take req).length + 1) (cr.buffer ++ c.take req)).2))
          req hreq (by simp only at hmeas ⊢; omega)
        refine ⟨res, ?_⟩
        simp only [caseRead, if_neg (by simp [hm] : ¬ cr.mapped.length ≠ 0)]
        rw [sourceRead_cons cr.reader req c rest hc]
        simp only
        exact hres
    · refine ⟨(cr.mapped.take (copyFromChecked req cr.mapped).2, none,
        { cr with mapped := (copyFromChecked req cr.mapped).1 }), ?_⟩
      simp only [caseRead,
        if_pos (by simpa [List.length_eq_zero] using hm : cr.mapped.length ≠ 0)]

theorem caseRead_len (upB loB : Nat → Bytes) (f : Nat) : ∀ cr req out err cr',
    caseRead upB loB f cr req = some (out, err, cr') → out.length ≤ req := by
  induction f with
  | zero =>
    intro cr req out err cr' h
    simp [caseRead] at h
  | succ f ih =>
    intro cr req out err cr' h
    by_cases hm : cr.mapped = []
    · simp only [caseRead, if_neg (by simp [hm] : ¬ cr.mapped.length ≠ 0)] at h
      rcases hc : cr.reader.chunks with _ | ⟨c, rest⟩
      · rw [sourceRead_nil cr.reader req hc] at h
        simp only [Option.some.injEq, Prod.mk.injEq] at h
        obtain ⟨h1, _, _⟩ := h
        simp [← h1]
      · rw [sourceRead_cons cr.reader req c rest hc] at h
        simp only at h
        exact ih _ req out err cr' h
    · simp only [caseRead,
        if_pos (by simpa [List.length_eq_zero] using hm : cr.mapped.length ≠ 0)] at h
      simp only [Option.some.injEq, Prod.mk.injEq] at h
      obtain ⟨h1, _, _⟩ := h
      rw [← h1]
      simp [copyFromChecked, List.length_take]

theorem streamOut_empty (upB loB : Nat → Bytes) (cr : CaseReader)
    (hm : cr.mapped = []) (hch : cr.reader.chunks = [])
    (hst : stuckCarry cr.buffer = true) : streamOut upB loB cr = [] := by
  unfold streamOut
  rw [hm, hch]
  simp only [List.flatten_nil, List.append_nil, List.nil_append]
  rw [stuckCarry_runes cr.buffer hst, caseMapJoin_nil]

theorem caseRead_streamOut (upB loB : Nat → Bytes) (f : Nat) (cr : CaseReader)
    (req : Nat) (out : Bytes) (err : Option GoErr) (cr' : CaseReader)
    (h : caseRead upB loB f cr req = some (out, err, cr')) :
    streamOut upB loB cr = out ++ streamOut upB loB cr' := by
  obtain ⟨hf, ht, consumed, processed, hfl, hbuf, hdec, hout⟩ :=
    caseRead_conserve upB loB f cr req out err cr' h
  unfold streamOut
  rw [hfl, ht]
  have hassoc : cr.buffer ++ (consumed ++ cr'.reader.chunks.flatten) =
      processed ++ (cr'.buffer ++ cr'.reader.chunks.flatten) := by
    rw [← List.append_assoc, hbuf, List.append_assoc]
  rw [hassoc]
  rw [decodeAll_append processed.length processed _ (le_refl _) hdec]
  simp only
  rw [caseMapJoin_append, ← List.append_assoc, ← hout, List.append_assoc]

theorem caseDrain_spec (upB loB : Nat → Bytes) (fD : Nat) : ∀ cr req,
    1 ≤ req → stuckCarry cr.buffer = true →
    (streamOut upB loB cr).length + 1 ≤ fD →
    caseDrain upB loB fD cr req = some (streamOut upB loB cr, cr.reader.final) := by
  induction fD with
  | zero =>
    intro cr req _ _ hfD
    omega
  | succ fD ih =>
    intro cr req hreq hst hfD
    obtain ⟨⟨out, err, cr'⟩, hres⟩ :=
      caseRead_total upB loB (srcMeasure cr.reader + 2) cr req hreq (le_refl _)
    have hso := caseRead_streamOut upB loB _ cr req out err cr' hres
    rcases err with _ | e
    · have hprog := caseRead_progress upB loB _ cr req out cr' hres hreq
      have hst' := caseRead_stuck upB loB _ cr req out none cr' hres hst
      obtain ⟨hf, -, -⟩ := caseRead_conserve upB loB _ cr req out none cr' hres
      have houtlen : 1 ≤ out.length := by
        rcases hout : out with _ | ⟨a, l⟩
        · exact absurd hout hprog
        · simp
      have hlen : (streamOut upB loB cr').length + 1 ≤ fD := by
        have hl := congrArg List.length hso
        rw [List.length_append] at hl
        omega
      have hrec := ih cr' req hreq hst' hlen
      simp only [caseDrain]
      rw [hres]
      simp only
      rw [hrec]
      simp only
      rw [hso, hf]
    · obtain ⟨he, hout, hm0, hm', hch⟩ := caseRead_err upB loB _ cr req out e cr' hres
      have hst' := caseRead_stuck upB loB _ cr req out (some e) cr' hres hst
      have hso' : streamOut upB loB cr' = [] := streamOut_empty upB loB cr' hm' hch hst'
      simp only [caseDrain]
      rw [hres]
      simp only
      rw [hso, hso', hout, he, List.append_nil]

theorem replaceDecode_eq (f : Nat) : ∀ b : Bytes, b.length ≤ f →
    (decodeAll b).2 = [] → replaceDecode f b = (decodeAll b).1 := by
  induction f with
  | zero =>
    intro b hb _
    have : b = [] := List.eq_nil_of_length_eq_zero (Nat.le_zero.mp hb)
    subst this
    simp [replaceDecode, decodeAll_nil]
  | succ f ih =>
    intro b hb h2
    rcases hbb : b with _ | ⟨b0, tail⟩
    · simp [replaceDecode, decodeAll_nil]
    · rw [← hbb]
      have hne : b ≠ [] := by rw [hbb]; simp
      by_cases hd : (decodeRune b).1 = 0xFFFD
      · rw [decodeAll_stuck b hd] at h2
        exact absurd h2 hne
      · have hcons := decodeAll_cons b hd
        have hpos := decodeRune_size_pos b hd
        have hmax : max (decodeRune b).2 1 = (decodeRune b).2 := by omega
        have hrd : replaceDecode (f + 1) b =
            (decodeRune b).1 :: replaceDecode f (b.drop (max (decodeRune b).2 1)) := by
          rw [hbb]
          simp only [replaceDecode]
        rw [hrd, hmax, hcons]
        rw [hcons] at h2
        simp only at h2 ⊢
        rw [ih _ (by rw [List.length_drop]; omega) h2]
  
theorem specCaseFold_eq (upB loB : Nat → Bytes) (t : Bool) (b : Bytes)
    (h : (decodeAll b).2 = []) :
    specCaseFold upB loB t b = caseMapJoin upB loB t (decodeAll b).1 := by
  unfold specCaseFold
  rw [replaceDecode_eq b.length b (le_refl _) h]

theorem wsRunes_prefix (x y : Bytes) (h : wsRunes (x ++ y)) : wsRunes x :=
  fun r hr => h r (decodeAll_mono x.length x y r (le_refl _) hr)

theorem trimScan_ws (buf : Bytes) : ∀ f i fsp sk, buf.length + 1 ≤ f + i →
    wsRunes (buf.drop i) → trimScan f buf i fsp sk = ([], fsp, sk) := by
  intro f
  induction f with
  | zero =>
    intro i fsp sk hf hws
    simp only [trimScan]
  | succ f ih =>
    intro i fsp sk hf hws
    by_cases hi : i < buf.length
    · simp only [trimScan, if_pos hi]
      by_cases hd : (decodeRune (buf.drop i)).1 = 0xFFFD
      · simp [hd]
      · have hcons := decodeAll_cons (buf.drop i) hd
        have hsp : isSpace (decodeRune (buf.drop i)).1 = true := by
          apply hws
          rw [hcons]
          exact List.mem_cons_self _ _
        have hpos := decodeRune_size_pos _ hd
        rw [if_neg hd, if_pos hsp]
        apply ih
        · omega
        · intro r hr
          apply hws
          rw [hcons]
          refine List.mem_cons_of_mem _ ?_
          have hdd : buf.drop (i + (decodeRune (buf.drop i)).2) =
              (buf.drop i).drop (decodeRune (buf.drop i)).2 := by
            rw [List.drop_drop, Nat.add_comm]
          rwa [hdd] at hr
    · simp only [trimScan, if_neg hi]

theorem trimRead_ws (f : Nat) : ∀ tr req, 1 ≤ req → srcMeasure tr.reader + 2 ≤ f →
    tr.trimmed = [] → wsRunes (tr.buffer ++ tr.reader.chunks.flatten) →
    ∃ tr', trimRead f tr req = some ([], some tr.reader.final, tr') := by
  induction f with
  | zero =>
    intro tr req _ hf
    omega
  | succ f ih =>
    intro tr req hreq hf htm hws
    rcases hc : tr.reader.chunks with _ | ⟨c, rest⟩
    · refine ⟨{ tr with reader := tr.reader }, ?_⟩
      simp only [trimRead, if_neg (by simp [htm] : ¬ tr.trimmed.length ≠ 0)]
      rw [sourceRead_nil tr.reader req hc]
    · have hsf := sourceRead_flatten tr.reader req
      rw [sourceRead_cons tr.reader req c rest hc, hc] at hsf
      simp only at hsf
      have htotal : tr.buffer ++ tr.reader.chunks.flatten =
          (tr.buffer ++ c.take req) ++
            (if req < c.length then c.drop req :: rest else rest).flatten := by
        rw [hc, hsf, List.append_assoc]
      rw [htotal] at hws
      have hwsB : wsRunes (tr.buffer ++ c.take req) := wsRunes_prefix _ _ hws
      have hscan := trimScan_ws (tr.buffer ++ c.take req)
        ((tr.buffer ++ c.take req).length + 1) 0 0 tr.skippedSpaces (by omega)
        (by rwa [List.drop_zero])
      have hmeas : srcMeasure (sourceRead tr.reader req).2.2 < srcMeasure tr.reader :=
        sourceRead_measure tr.reader req hreq (by simp [hc])
      rw [sourceRead_cons tr.reader req c rest hc] at hmeas
      simp only at hmeas
      obtain ⟨tr', htr'⟩ := ih
        (TrimReader.mk
          (Source.mk (if req < c.length then c.drop req :: rest else rest)
            tr.reader.final)
          ((tr.buffer ++ c.take req).drop 0)
          (tr.trimmed ++ [])
          tr.skippedSpaces)
        req hreq (by simp only; omega)
        (by simp [htm])
        (by simpa using hws)
      refine ⟨tr', ?_⟩
      simp only [trimRead, if_neg (by simp [htm] : ¬ tr.trimmed.length ≠ 0)]
      rw [sourceRead_cons tr.reader req c rest hc]
      simp only
      rw [hscan]
      simp only at htr' ⊢
      exact htr'

theorem trimDrain_ws (fD : Nat) (tr : TrimReader) (req : Nat) (h1 : 1 ≤ req)
    (hD : 1 ≤ fD) (htm : tr.trimmed = [])
    (hws : wsRunes (tr.buffer ++ tr.reader.chunks.flatten)) :
    trimDrain fD tr req = some ([], tr.reader.final) := by
  obtain ⟨fD', rfl⟩ : ∃ k, fD = k + 1 := ⟨fD - 1, by omega⟩
  obtain ⟨tr', htr'⟩ :=
    trimRead_ws (srcMeasure tr.reader + 2) tr req h1 (le_refl _) htm hws
  simp only [trimDrain]
  rw [htr']

theorem trimRead_len (f : Nat) : ∀ tr req out err tr',
    trimRead f tr req = some (out, err, tr') → out.length ≤ req := by
  induction f with
  | zero =>
    intro tr req out err tr' h
    simp [trimRead] at h
  | succ f ih =>
    intro tr req out err tr' h
    by_cases hm : tr.trimmed = []
    · simp only [trimRead, if_neg (by simp [hm] : ¬ tr.trimmed.length ≠ 0)] at h
      rcases hc : tr.reader.chunks with _ | ⟨c, rest⟩
      · rw [sourceRead_nil tr.reader req hc] at h
        simp only [Option.some.injEq, Prod.mk.injEq] at h
        obtain ⟨h1, _, _⟩ := h
        simp [← h1]
      · rw [sourceRead_cons tr.reader req c rest hc] at h
        simp only at h
        exact ih _ req out err tr' h
    · simp only [trimRead,
        if_pos (by simpa [List.length_eq_zero] using hm : tr.trimmed.length ≠ 0)] at h
      simp only [Option.some.injEq, Prod.mk.injEq] at h
      obtain ⟨h1, _, _⟩ := h
      rw [← h1]
      simp [copyFromChecked, List.length_take]


theorem trimSpec_nil (f : Nat) (sk : Bool) : trimSpec f [] sk = [] := by
  cases f <;> simp [trimSpec, decodeRune]

theorem trimSpec_congr (f : Nat) : ∀ g b sk, List.length b ≤ f → List.length b ≤ g →
    trimSpec f b sk = trimSpec g b sk := by
  induction f with
  | zero =>
    intro g b sk hf _
    have hb : b = [] := List.eq_nil_of_length_eq_zero (Nat.le_zero.mp hf)
    subst hb
    rw [trimSpec_nil, trimSpec_nil]
  | succ f ih =>
    intro g b sk hf hg
    cases g with
    | zero =>
      have hb : b = [] := List.eq_nil_of_length_eq_zero (Nat.le_zero.mp hg)
      subst hb
      rw [trimSpec_nil, trimSpec_nil]
    | succ g =>
      by_cases hd : (decodeRune b).1 = 0xFFFD
      · simp [trimSpec, hd]
      · have hpos := decodeRune_size_pos b hd
        have hl1 : (b.drop (decodeRune b).2).length ≤ f := by
          rw [List.length_drop]; omega
        have hl2 : (b.drop (decodeRune b).2).length ≤ g := by
          rw [List.length_drop]; omega
        simp only [trimSpec, if_neg hd]
        rw [ih g _ sk hl1 hl2, ih g _ true hl1 hl2]

theorem trimSpecFrom_stuck (b : Bytes) (sk : Bool)
    (h : (decodeRune b).1 = 0xFFFD) : trimSpecFrom b sk = [] := by
  unfold trimSpecFrom
  cases hb : b.length with
  | zero => simp [trimSpec]
  | succ n => simp [trimSpec, h]

theorem trimSpecFrom_space_true (b : Bytes) (hd : (decodeRune b).1 ≠ 0xFFFD)
    (hsp : isSpace (decodeRune b).1 = true) :
    trimSpecFrom b true =
      if trimSpecFrom (b.drop (decodeRune b).2) true = [] then []
      else b.take (decodeRune b).2 ++ trimSpecFrom (b.drop (decodeRune b).2) true := by
  have hpos := decodeRune_size_pos b hd
  have hle := decodeRune_size_le b hd
  obtain ⟨n, hn⟩ : ∃ n, b.length = n + 1 := ⟨b.length - 1, by omega⟩
  unfold trimSpecFrom
  rw [hn]
  simp only [trimSpec, if_neg hd, hsp, if_pos rfl, if_true]
  rw [trimSpec_congr n _ _ true (by rw [List.length_drop]; omega) (le_refl _)]

theorem trimSpecFrom_space_false (b : Bytes) (hd : (decodeRune b).1 ≠ 0xFFFD)
    (hsp : isSpace (decodeRune b).1 = true) :
    trimSpecFrom b false = trimSpecFrom (b.drop (decodeRune b).2) false := by
  have hpos := decodeRune_size_pos b hd
  have hle := decodeRune_size_le b hd
  obtain ⟨n, hn⟩ : ∃ n, b.length = n + 1 := ⟨b.length - 1, by omega⟩
  unfold trimSpecFrom
  rw [hn]
  simp only [trimSpec, if_neg hd, hsp, if_true, Bool.false_eq_true, if_false]
  rw [trimSpec_congr n _ _ false (by rw [List.length_drop]; omega) (le_refl _)]

theorem trimSpecFrom_nonspace (b : Bytes) (sk : Bool)
    (hd : (decodeRune b).1 ≠ 0xFFFD) (hsp : isSpace (decodeRune b).1 = false) :
    trimSpecFrom b sk =
      b.take (decodeRune b).2 ++ trimSpecFrom (b.drop (decodeRune b).2) true := by
  have hpos := decodeRune_size_pos b hd
  have hle := decodeRune_size_le b hd
  obtain ⟨n, hn⟩ : ∃ n, b.length = n + 1 := ⟨b.length - 1, by omega⟩
  unfold trimSpecFrom
  rw [hn]
  simp only [trimSpec, if_neg hd, hsp, Bool.false_eq_true, if_false]
  rw [trimSpec_congr n _ _ true (by rw [List.length_drop]; omega) (le_refl _)]

theorem decodeAll_single (b : Bytes) (hd : (decodeRune b).1 ≠ 0xFFFD) :
    decodeAll (b.take (decodeRune b).2) = ([(decodeRune b).1], []) := by
  have hle := decodeRune_size_le b hd
  have htk : decodeRune (b.take (decodeRune b).2) = decodeRune b := by
    have h := decodeRune_take b [] hd
    rwa [List.append_nil] at h
  have hcons := decodeAll_cons (b.take (decodeRune b).2) (by rw [htk]; exact hd)
  rw [htk] at hcons
  rw [hcons]
  have hdrop : (b.take (decodeRune b).2).drop (decodeRune b).2 = [] := by
    apply List.drop_of_length_le
    rw [List.length_take]
    omega
  rw [hdrop, decodeAll_nil]

theorem spaceSeg_nil : spaceSeg [] := by
  constructor
  · rw [decodeAll_nil]
  · intro r hr
    rw [decodeAll_nil] at hr
    simp at hr

theorem spaceSeg_stuck_nil (S : Bytes) (hS : spaceSeg S)
    (hd : (decodeRune S).1 = 0xFFFD) : S = [] := by
  have h2 := hS.1
  rw [decodeAll_stuck S hd] at h2
  exact h2

theorem spaceSeg_tail (S : Bytes) (hS : spaceSeg S)
    (hd : (decodeRune S).1 ≠ 0xFFFD) :
    spaceSeg (S.drop (decodeRune S).2) ∧ isSpace (decodeRune S).1 = true := by
  have hcons := decodeAll_cons S hd
  obtain ⟨h2, hall⟩ := hS
  rw [hcons] at h2 hall
  refine ⟨⟨h2, ?_⟩, ?_⟩
  · intro r hr
    exact hall r (List.mem_cons_of_mem _ hr)
  · exact hall _ (List.mem_cons_self _ _)

theorem spaceSeg_extend (S b : Bytes) (hS : spaceSeg S)
    (hd : (decodeRune b).1 ≠ 0xFFFD) (hsp : isSpace (decodeRune b).1 = true) :
    spaceSeg (S ++ b.take (decodeRune b).2) := by
  have hsingle := decodeAll_single b hd
  have happ := decodeAll_append S.length S (b.take (decodeRune b).2) (le_refl _) hS.1
  constructor
  · rw [happ]
    simp only
    rw [hsingle]
  · intro r hr
    rw [happ] at hr
    simp only at hr
    rcases List.mem_append.mp hr with h | h
    · exact hS.2 r h
    · rw [hsingle] at h
      simp only [List.mem_singleton] at h
      rw [h]
      exact hsp

theorem take_size_ne_nil (b : Bytes) (hd : (decodeRune b).1 ≠ 0xFFFD) :
    b.take (decodeRune b).2 ≠ [] := by
  have hpos := decodeRune_size_pos b hd
  have hle := decodeRune_size_le b hd
  intro h
  have hlen := congrArg List.length h
  rw [List.length_take, List.length_nil] at hlen
  omega


theorem trimSpecFrom_dropSpaces (f : Nat) : ∀ S Y : Bytes, S.length ≤ f →
    spaceSeg S → trimSpecFrom (S ++ Y) false = trimSpecFrom Y false := by
  induction f with
  | zero =>
    intro S Y hf _
    have hS0 : S = [] := List.eq_nil_of_length_eq_zero (Nat.le_zero.mp hf)
    subst hS0
    rw [List.nil_append]
  | succ f ih =>
    intro S Y hf hS
    by_cases hd : (decodeRune S).1 = 0xFFFD
    · have hS0 := spaceSeg_stuck_nil S hS hd
      subst hS0
      rw [List.nil_append]
    · obtain ⟨hS', hsp⟩ := spaceSeg_tail S hS hd
      have hdSY : decodeRune (S ++ Y) = decodeRune S := decodeRune_append S Y hd
      have hpos := decodeRune_size_pos S hd
      have hle := decodeRune_size_le S hd
      rw [trimSpecFrom_space_false (S ++ Y) (by rw [hdSY]; exact hd)
        (by rw [hdSY]; exact hsp)]
      rw [hdSY, List.drop_append_of_le_length hle]
      exact ih _ Y (by rw [List.length_drop]; omega) hS'

theorem trimSpecFrom_run_true (f : Nat) : ∀ S Y : Bytes, S.length ≤ f →
    spaceSeg S → (decodeRune Y).1 ≠ 0xFFFD → isSpace (decodeRune Y).1 = false →
    trimSpecFrom (S ++ Y) true =
      S ++ Y.take (decodeRune Y).2 ++ trimSpecFrom (Y.drop (decodeRune Y).2) true := by
  induction f with
  | zero =>
    intro S Y hf _ hd hsp
    have hS0 : S = [] := List.eq_nil_of_length_eq_zero (Nat.le_zero.mp hf)
    subst hS0
    simp only [List.nil_append]
    exact trimSpecFrom_nonspace Y true hd hsp
  | succ f ih =>
    intro S Y hf hS hd hsp
    by_cases hdS : (decodeRune S).1 = 0xFFFD
    · have hS0 := spaceSeg_stuck_nil S hS hdS
      subst hS0
      simp only [List.nil_append]
      exact trimSpecFrom_nonspace Y true hd hsp
    · obtain ⟨hS', hspS⟩ := spaceSeg_tail S hS hdS
      have hdSY : decodeRune (S ++ Y) = decodeRune S := decodeRune_append S Y hdS
      have hpos := decodeRune_size_pos S hdS
      have hle := decodeRune_size_le S hdS
      have hrec := ih (S.drop (decodeRune S).2) Y
        (by rw [List.length_drop]; omega) hS' hd hsp
      rw [trimSpecFrom_space_true (S ++ Y) (by rw [hdSY]; exact hdS)
        (by rw [hdSY]; exact hspS)]
      rw [hdSY, List.drop_append_of_le_length hle, hrec]
      have hposY := decodeRune_size_pos Y hd
      have hleY := decodeRune_size_le Y hd
      have hne : S.drop (decodeRune S).2 ++ Y.take (decodeRune Y).2 ++
          trimSpecFrom (Y.drop (decodeRune Y).2) true ≠ [] := by
        intro h0
        have hl0 := congrArg List.length h0
        simp only [List.length_append, List.length_take, List.length_nil] at hl0
        omega
      rw [if_neg hne, List.take_append_of_le_length hle]
      rw [List.append_assoc]
      rw [← List.append_assoc (S.take (decodeRune S).2) (S.drop (decodeRune S).2),
        List.take_append_drop, List.append_assoc]

theorem trimSpecFrom_run_false (S Y : Bytes) (hS : spaceSeg S)
    (hd : (decodeRune Y).1 ≠ 0xFFFD) (hsp : isSpace (decodeRune Y).1 = false) :
    trimSpecFrom (S ++ Y) false =
      Y.take (decodeRune Y).2 ++ trimSpecFrom (Y.drop (decodeRune Y).2) true := by
  rw [trimSpecFrom_dropSpaces S.length S Y (le_refl _) hS]
  exact trimSpecFrom_nonspace Y false hd hsp

theorem trimSpecFrom_ws_stuck (f : Nat) : ∀ (S T : Bytes) (sk : Bool),
    S.length ≤ f → spaceSeg S → stuckCarry T = true →
    trimSpecFrom (S ++ T) sk = [] := by
  induction f with
  | zero =>
    intro S T sk hf _ hT
    have hS0 : S = [] := List.eq_nil_of_length_eq_zero (Nat.le_zero.mp hf)
    subst hS0
    rw [List.nil_append]
    exact trimSpecFrom_stuck T sk (by simpa [stuckCarry] using hT)
  | succ f ih =>
    intro S T sk hf hS hT
    by_cases hdS : (decodeRune S).1 = 0xFFFD
    · have hS0 := spaceSeg_stuck_nil S hS hdS
      subst hS0
      rw [List.nil_append]
      exact trimSpecFrom_stuck T sk (by simpa [stuckCarry] using hT)
    · obtain ⟨hS', hspS⟩ := spaceSeg_tail S hS hdS
      have hdST : decodeRune (S ++ T) = decodeRune S := decodeRune_append S T hdS
      have hpos := decodeRune_size_pos S hdS
      have hle := decodeRune_size_le S hdS
      have hrec := ih (S.drop (decodeRune S).2) T sk
        (by rw [List.length_drop]; omega) hS' hT
      cases sk with
      | false =>
        rw [trimSpecFrom_space_false (S ++ T) (by rw [hdST]; exact hdS)
          (by rw [hdST]; exact hspS)]
        rw [hdST, List.drop_append_of_le_length hle]
        exact hrec
      | true =>
        rw [trimSpecFrom_space_true (S ++ T) (by rw [hdST]; exact hdS)
          (by rw [hdST]; exact hspS)]
        rw [hdST, List.drop_append_of_le_length hle, hrec]
        simp


theorem trimScan_spec (X : Bytes) : ∀ (f : Nat) (buf : Bytes) (i fsp : Nat) (sk : Bool),
    buf.length + 1 ≤ f + i → fsp ≤ i → i ≤ buf.length →
    spaceSeg ((buf.drop fsp).take (i - fsp)) →
    (trimSpecFrom (buf.drop fsp ++ X) sk =
      (trimScan f buf i fsp sk).1 ++
        trimSpecFrom (buf.drop (trimScan f buf i fsp sk).2.1 ++ X)
          (trimScan f buf i fsp sk).2.2) ∧
    fsp ≤ (trimScan f buf i fsp sk).2.1 ∧
    (trimScan f buf i fsp sk).2.1 ≤ buf.length ∧
    ∃ iEnd, (trimScan f buf i fsp sk).2.1 ≤ iEnd ∧ iEnd ≤ buf.length ∧
      spaceSeg ((buf.drop (trimScan f buf i fsp sk).2.1).take
        (iEnd - (trimScan f buf i fsp sk).2.1)) ∧
      stuckCarry (buf.drop iEnd) = true := by
  intro f
  induction f with
  | zero =>
    intro buf i fsp sk hf hfi hil _
    exfalso
    omega
  | succ f ih =>
    intro buf i fsp sk hf hfi hil hseg
    by_cases hi : i < buf.length
    · simp only [trimScan, if_pos hi]
      by_cases hd : (decodeRune (buf.drop i)).1 = 0xFFFD
      · rw [if_pos hd]
        simp only
        exact ⟨by simp, le_refl _, by omega, i, hfi, by omega, hseg,
          by simp [stuckCarry, hd]⟩
      · rw [if_neg hd]
        have hpos := decodeRune_size_pos _ hd
        have hsz := decodeRune_size_le _ hd
        rw [List.length_drop] at hsz
        have hle2 : i + (decodeRune (buf.drop i)).2 ≤ buf.length := by omega
        have hdd : (buf.drop fsp).drop (i - fsp) = buf.drop i := by
          rw [List.drop_drop]
          congr 1
          omega
        have hsplitS : buf.drop fsp =
            (buf.drop fsp).take (i - fsp) ++ buf.drop i := by
          rw [← hdd, List.take_append_drop]
        have hdY : decodeRune (buf.drop i ++ X) = decodeRune (buf.drop i) :=
          decodeRune_append _ X hd
        have hszle : (decodeRune (buf.drop i)).2 ≤ (buf.drop i).length := by
          rw [List.length_drop]
          omega
        have htakeY : (buf.drop i ++ X).take (decodeRune (buf.drop i)).2 =
            (buf.drop i).take (decodeRune (buf.drop i)).2 :=
          List.take_append_of_le_length hszle
        have hdropY : (buf.drop i ++ X).drop (decodeRune (buf.drop i)).2 =
            buf.drop (i + (decodeRune (buf.drop i)).2) ++ X := by
          rw [List.drop_append_of_le_length hszle, List.drop_drop]
        have houtadd : (buf.drop fsp).take (i - fsp) ++
            (buf.drop i).take (decodeRune (buf.drop i)).2 =
            (buf.drop fsp).take (i + (decodeRune (buf.drop i)).2 - fsp) := by
          rw [show i + (decodeRune (buf.drop i)).2 - fsp =
            (i - fsp) + (decodeRune (buf.drop i)).2 from by omega]
          rw [List.take_add, hdd]
        by_cases hsp : isSpace (decodeRune (buf.drop i)).1 = true
        · rw [if_pos hsp]
          have hseg2 : spaceSeg ((buf.drop fsp).take
              (i + (decodeRune (buf.drop i)).2 - fsp)) := by
            rw [← houtadd]
            exact spaceSeg_extend _ _ hseg hd hsp
          exact ih buf (i + (decodeRune (buf.drop i)).2) fsp sk (by omega)
            (by omega) hle2 hseg2
        · rw [if_neg hsp]
          have hspF : isSpace (decodeRune (buf.drop i)).1 = false := by
            simpa using hsp
          have hsegNil : spaceSeg ((buf.drop (i + (decodeRune (buf.drop i)).2)).take
              ((i + (decodeRune (buf.drop i)).2) - (i + (decodeRune (buf.drop i)).2))) := by
            rw [Nat.sub_self, List.take_zero]
            exact spaceSeg_nil
          cases sk with
          | true =>
            rw [if_pos rfl]
            obtain ⟨ihEq, ihF1, ihF2, iEnd, ihE1, ihE2, ihSeg, ihStuck⟩ :=
              ih buf (i + (decodeRune (buf.drop i)).2)
                (i + (decodeRune (buf.drop i)).2) true (by omega) (le_refl _)
                hle2 hsegNil
            simp only
            refine ⟨?_, by omega, ihF2, iEnd, ihE1, ihE2, ihSeg, ihStuck⟩
            have hrun := trimSpecFrom_run_true ((buf.drop fsp).take (i - fsp)).length
              ((buf.drop fsp).take (i - fsp)) (buf.drop i ++ X) (le_refl _) hseg
              (by rw [hdY]; exact hd) (by rw [hdY]; exact hspF)
            rw [hdY, htakeY, hdropY] at hrun
            conv_lhs => rw [hsplitS, List.append_assoc]
            rw [hrun, ihEq, ← houtadd]
            simp [List.append_assoc]
          | false =>
            rw [if_neg (by simp)]
            obtain ⟨ihEq, ihF1, ihF2, iEnd, ihE1, ihE2, ihSeg, ihStuck⟩ :=
              ih buf (i + (decodeRune (buf.drop i)).2)
                (i + (decodeRune (buf.drop i)).2) true (by omega) (le_refl _)
                hle2 hsegNil
            simp only
            refine ⟨?_, by omega, ihF2, iEnd, ihE1, ihE2, ihSeg, ihStuck⟩
            have hrun := trimSpecFrom_run_false ((buf.drop fsp).take (i - fsp))
              (buf.drop i ++ X) hseg (by rw [hdY]; exact hd)
              (by rw [hdY]; exact hspF)
            rw [hdY, htakeY, hdropY] at hrun
            conv_lhs => rw [hsplitS, List.append_assoc]
            rw [hrun, ihEq]
            simp [List.append_assoc]
    · simp only [trimScan, if_neg hi]
      refine ⟨by simp, le_refl _, by omega, i, by omega, by omega, hseg, ?_⟩
      have hdropnil : buf.drop i = [] := List.drop_of_length_le (by omega)
      rw [hdropnil]
      rfl

theorem trimScan_zero (X buf : Bytes) (sk : Bool) :
    trimSpecFrom (buf ++ X) sk =
      (trimScan (buf.length + 1) buf 0 0 sk).1 ++
        trimSpecFrom (buf.drop (trimScan (buf.length + 1) buf 0 0 sk).2.1 ++ X)
          (trimScan (buf.length + 1) buf 0 0 sk).2.2 := by
  have h := trimScan_spec X (buf.length + 1) buf 0 0 sk (by omega) (le_refl _)
    (by omega) (by simpa using spaceSeg_nil)
  simpa using h.1

theorem trimScan_zero_carry (buf : Bytes) (sk : Bool) :
    trimCarryOK (buf.drop (trimScan (buf.length + 1) buf 0 0 sk).2.1) := by
  have h := trimScan_spec [] (buf.length + 1) buf 0 0 sk (by omega) (le_refl _)
    (by omega) (by simpa using spaceSeg_nil)
  obtain ⟨-, -, hle, iEnd, h1, h2, hseg, hstuck⟩ := h
  refine ⟨_, buf.drop iEnd, ?_, hseg, hstuck⟩
  have hdd : buf.drop iEnd =
      (buf.drop (trimScan (buf.length + 1) buf 0 0 sk).2.1).drop
        (iEnd - (trimScan (buf.length + 1) buf 0 0 sk).2.1) := by
    rw [List.drop_drop]
    congr 1
    omega
  rw [hdd, List.take_append_drop]

theorem trimRead_stream (f : Nat) : ∀ tr req out err tr',
    trimRead f tr req = some (out, err, tr') →
    tr'.reader.final = tr.reader.final ∧
    trimStreamOut tr = out ++ trimStreamOut tr' := by
  induction f with
  | zero =>
    intro tr req out err tr' h
    simp [trimRead] at h
  | succ f ih =>
    intro tr req out err tr' h
    by_cases hm : tr.trimmed = []
    · simp only [trimRead, if_neg (by simp [hm] : ¬ tr.trimmed.length ≠ 0)] at h
      rcases hc : tr.reader.chunks with _ | ⟨c, rest⟩
      · rw [sourceRead_nil tr.reader req hc] at h
        simp only [Option.some.injEq, Prod.mk.injEq] at h
        obtain ⟨h1, h2, h3⟩ := h
        subst h1
        subst h2
        subst h3
        exact ⟨rfl, by simp [trimStreamOut]⟩
      · rw [sourceRead_cons tr.reader req c rest hc] at h
        simp only at h
        obtain ⟨hf, heq⟩ := ih _ req out err tr' h
        simp only at hf
        refine ⟨hf, ?_⟩
        have hsf := sourceRead_flatten tr.reader req
        rw [sourceRead_cons tr.reader req c rest hc, hc] at hsf
        simp only at hsf
        simp only [trimStreamOut] at heq ⊢
        rw [hc, hsf, ← List.append_assoc,
          trimScan_zero _ (tr.buffer ++ c.take req) tr.skippedSpaces,
          ← List.append_assoc]
        exact heq
    · simp only [trimRead,
        if_pos (by simpa [List.length_eq_zero] using hm : tr.trimmed.length ≠ 0)] at h
      simp only [Option.some.injEq, Prod.mk.injEq] at h
      obtain ⟨h1, h2, h3⟩ := h
      subst h1
      subst h2
      subst h3
      refine ⟨rfl, ?_⟩
      simp only [trimStreamOut, copyFromChecked]
      rw [← List.append_assoc, List.take_append_drop]

theorem trimRead_err (f : Nat) : ∀ tr req out e tr',
    trimRead f tr req = some (out, some e, tr') →
    e = tr.reader.final ∧ out = [] ∧ tr.trimmed = [] ∧ tr'.trimmed = [] ∧
    tr'.reader.chunks = [] := by
  induction f with
  | zero =>
    intro tr req out e tr' h
    simp [trimRead] at h
  | succ f ih =>
    intro tr req out e tr' h
    by_cases hm : tr.trimmed = []
    · simp only [trimRead, if_neg (by simp [hm] : ¬ tr.trimmed.length ≠ 0)] at h
      rcases hc : tr.reader.chunks with _ | ⟨c, rest⟩
      · rw [sourceRead_nil tr.reader req hc] at h
        simp only [Option.some.injEq, Prod.mk.injEq] at h
        obtain ⟨h1, h2, h3⟩ := h
        subst h1
        subst h3
        refine ⟨by simp [← h2], rfl, hm, by simp [hm], by simp [hc]⟩
      · rw [sourceRead_cons tr.reader req c rest hc] at h
        simp only at h
        obtain ⟨he, ho, _, hm', hch⟩ := ih _ req out e tr' h
        simp only at he
        exact ⟨he, ho, hm, hm', hch⟩
    · simp only [trimRead,
        if_pos (by simpa [List.length_eq_zero] using hm : tr.trimmed.length ≠ 0)] at h
      simp only [Option.some.injEq, Prod.mk.injEq] at h
      obtain ⟨_, h2, _⟩ := h
      exact absurd h2 (by simp)

theorem trimRead_progress (f : Nat) : ∀ tr req out tr',
    trimRead f tr req = some (out, none, tr') → 1 ≤ req → out ≠ [] := by
  induction f with
  | zero =>
    intro tr req out tr' h _
    simp [trimRead] at h
  | succ f ih =>
    intro tr req out tr' h hreq
    by_cases hm : tr.trimmed = []
    · simp only [trimRead, if_neg (by simp [hm] : ¬ tr.trimmed.length ≠ 0)] at h
      rcases hc : tr.reader.chunks with _ | ⟨c, rest⟩
      · rw [sourceRead_nil tr.reader req hc] at h
        simp at h
      · rw [sourceRead_cons tr.reader req c rest hc] at h
        simp only at h
        exact ih _ req out tr' h hreq
    · simp only [trimRead,
        if_pos (by simpa [List.length_eq_zero] using hm : tr.trimmed.length ≠ 0)] at h
      simp only [Option.some.injEq, Prod.mk.injEq] at h
      obtain ⟨h1, _, _⟩ := h
      have hlen : 0 < tr.trimmed.length := List.length_pos.mpr hm
      intro hout
      rw [← h1] at hout
      have hlen0 := congrArg List.length hout
      simp only [copyFromChecked, List.length_take, List.length_nil] at hlen0
      omega

theorem trimRead_carry (f : Nat) : ∀ tr req out err tr',
    trimRead f tr req = some (out, err, tr') →
    trimCarryOK tr.buffer → trimCarryOK tr'.buffer := by
  induction f with
  | zero =>
    intro tr req out err tr' h _
    simp [trimRead] at h
  | succ f ih =>
    intro tr req out err tr' h hok
    by_cases hm : tr.trimmed = []
    · simp only [trimRead, if_neg (by simp [hm] : ¬ tr.trimmed.length ≠ 0)] at h
      rcases hc : tr.reader.chunks with _ | ⟨c, rest⟩
      · rw [sourceRead_nil tr.reader req hc] at h
        simp only [Option.some.injEq, Prod.mk.injEq] at h
        obtain ⟨_, _, h3⟩ := h
        subst h3
        exact hok
      · rw [sourceRead_cons tr.reader req c rest hc] at h
        simp only at h
        refine ih _ req out err tr' h ?_
        simp only
        exact trimScan_zero_carry (tr.buffer ++ c.take req) tr.skippedSpaces
    · simp only [trimRead,
        if_pos (by simpa [List.length_eq_zero] using hm : tr.trimmed.length ≠ 0)] at h
      simp only [Option.some.injEq, Prod.mk.injEq] at h
      obtain ⟨_, _, h3⟩ := h
      subst h3
      exact hok

theorem trimRead_total (f : Nat) : ∀ tr req,
    1 ≤ req → srcMeasure tr.reader + 2 ≤ f →
    ∃ res, trimRead f tr req = some res := by
  induction f with
  | zero =>
    intro tr req _ hf
    omega
  | succ f ih =>
    intro tr req hreq hf
    by_cases hm : tr.trimmed = []
    · rcases hc : tr.reader.chunks with _ | ⟨c, rest⟩
      · refine ⟨([], some tr.reader.final, { tr with reader := tr.reader }), ?_⟩
        simp only [trimRead, if_neg (by simp [hm] : ¬ tr.trimmed.length ≠ 0)]
        rw [sourceRead_nil tr.reader req hc]
      · have hmeas : srcMeasure (sourceRead tr.reader req).2.2 < srcMeasure tr.reader :=
          sourceRead_measure tr.reader req hreq (by simp [hc])
        rw [sourceRead_cons tr.reader req c rest hc] at hmeas
        obtain ⟨res, hres⟩ := ih
          (TrimReader.mk
            (Source.mk (if req < c.length then c.drop req :: rest else rest)
              tr.reader.final)
            ((tr.buffer ++ c.take req).drop
              (trimScan ((tr.buffer ++ c.take req).length + 1)
                (tr.buffer ++ c.take req) 0 0 tr.skippedSpaces).2.1)
            (tr.trimmed ++ (trimScan ((tr.buffer ++ c.take req).length + 1)
              (tr.buffer ++ c.take req) 0 0 tr.skippedSpaces).1)
            ((trimScan ((tr.buffer ++ c.take req).length + 1)
              (tr.buffer ++ c.take req) 0 0 tr.skippedSpaces).2.2))
          req hreq (by simp only at hmeas ⊢; omega)
        refine ⟨res, ?_⟩
        simp only [trimRead, if_neg (by simp [hm] : ¬ tr.trimmed.length ≠ 0)]
        rw [sourceRead_cons tr.reader req c rest hc]
        simp only
        exact hres
    · refine ⟨(tr.trimmed.take (copyFromChecked req tr.trimmed).2, none,
        { tr with trimmed := (copyFromChecked req tr.trimmed).1 }), ?_⟩
      simp only [trimRead,
        if_pos (by simpa [List.length_eq_zero] using hm : tr.trimmed.length ≠ 0)]

theorem trimStreamOut_empty (tr : TrimReader) (hm : tr.trimmed = [])
    (hch : tr.reader.chunks = []) (hok : trimCarryOK tr.buffer) :
    trimStreamOut tr = [] := by
  obtain ⟨S, T, hb, hS, hT⟩ := hok
  unfold trimStreamOut
  rw [hm, hch, hb]
  simp only [List.flatten_nil, List.append_nil, List.nil_append]
  exact trimSpecFrom_ws_stuck S.length S T tr.skippedSpaces (le_refl _) hS hT

theorem trimDrain_spec (fD : Nat) : ∀ tr req,
    1 ≤ req → trimCarryOK tr.buffer →
    (trimStreamOut tr).length + 1 ≤ fD →
    trimDrain fD tr req = some (trimStreamOut tr, tr.reader.final) := by
  induction fD with
  | zero =>
    intro tr req _ _ hfD
    omega
  | succ fD ih =>
    intro tr req hreq hok hfD
    obtain ⟨⟨out, err, tr'⟩, hres⟩ :=
      trimRead_total (srcMeasure tr.reader + 2) tr req hreq (le_refl _)
    obtain ⟨hf, hso⟩ := trimRead_stream _ tr req out err tr' hres
    rcases err with _ | e
    · have hprog := trimRead_progress _ tr req out tr' hres hreq
      have hok' := trimRead_carry _ tr req out none tr' hres hok
      have houtlen : 1 ≤ out.length := by
        rcases hout : out with _ | ⟨a, l⟩
        · exact absurd hout hprog
        · simp
      have hlen : (trimStreamOut tr').length + 1 ≤ fD := by
        have hl := congrArg List.length hso
        rw [List.length_append] at hl
        omega
      have hrec := ih tr' req hreq hok' hlen
      simp only [trimDrain]
      rw [hres]
      simp only
      rw [hrec]
      simp only
      rw [hso, hf]
    · obtain ⟨he, hout, hm0, hm', hch⟩ := trimRead_err _ tr req out e tr' hres
      have hok' := trimRead_carry _ tr req out (some e) tr' hres hok
      have hso' : trimStreamOut tr' = [] := trimStreamOut_empty tr' hm' hch hok'
      simp only [trimDrain]
      rw [hres]
      simp only
      rw [hso, hso', hout, he, List.append_nil]

theorem convLoop_mono_lower : ∀ l hu hl' hu',
    convLoop l true hu = .ok (hl', hu') → hl' = true := by
  intro l
  induction l with
  | nil =>
    intro hu hl' hu' h
    simp only [convLoop, Except.ok.injEq, Prod.mk.injEq] at h
    exact h.1.symm
  | cons v rest ih =>
    intro hu hl' hu' h
    simp only [convLoop] at h
    by_cases ha : convAllowed v = true
    · rw [if_neg (not_not_intro ha)] at h
      by_cases h1 : v = "lower_case"
      · rw [if_pos (by simp [h1])] at h
        exact ih _ _ _ h
      · rw [if_neg (by simp [h1])] at h
        by_cases h2 : v = "upper_case"
        · rw [if_pos (by simp [h2])] at h
          exact ih _ _ _ h
        · rw [if_neg (by simp [h2])] at h
          exact ih _ _ _ h
    · rw [if_pos (by simpa using ha)] at h
      simp at h

theorem convLoop_mono_upper : ∀ l hl hl' hu',
    convLoop l hl true = .ok (hl', hu') → hu' = true := by
  intro l
  induction l with
  | nil =>
    intro hl hl' hu' h
    simp only [convLoop, Except.ok.injEq, Prod.mk.injEq] at h
    exact h.2.symm
  | cons v rest ih =>
    intro hl hl' hu' h
    simp only [convLoop] at h
    by_cases ha : convAllowed v = true
    · rw [if_neg (not_not_intro ha)] at h
      by_cases h1 : v = "lower_case"
      · rw [if_pos (by simp [h1])] at h
        exact ih _ _ _ h
      · rw [if_neg (by simp [h1])] at h
        by_cases h2 : v = "upper_case"
        · rw [if_pos (by simp [h2])] at h
          exact ih _ _ _ h
        · rw [if_neg (by simp [h2])] at h
          exact ih _ _ _ h
    · rw [if_pos (by simpa using ha)] at h
      simp at h

theorem convLoop_mem_lower : ∀ l hl hu hl' hu', "lower_case" ∈ l →
    convLoop l hl hu = .ok (hl', hu') → hl' = true := by
  intro l
  induction l with
  | nil =>
    intro hl hu hl' hu' hmem _
    simp at hmem
  | cons v rest ih =>
    intro hl hu hl' hu' hmem h
    simp only [convLoop] at h
    by_cases ha : convAllowed v = true
    · rw [if_neg (not_not_intro ha)] at h
      by_cases h1 : v = "lower_case"
      · rw [if_pos (by simp [h1])] at h
        exact convLoop_mono_lower rest _ _ _ h
      · rcases List.mem_cons.mp hmem with hv | hv
        · exact absurd hv.symm h1
        · rw [if_neg (by simp [h1])] at h
          by_cases h2 : v = "upper_case"
          · rw [if_pos (by simp [h2])] at h
            exact ih _ _ _ _ hv h
          · rw [if_neg (by simp [h2])] at h
            exact ih _ _ _ _ hv h
    · rw [if_pos (by simpa using ha)] at h
      simp at h

theorem convLoop_mem_upper : ∀ l hl hu hl' hu', "upper_case" ∈ l →
    convLoop l hl hu = .ok (hl', hu') → hu' = true := by
  intro l
  induction l with
  | nil =>
    intro hl hu hl' hu' hmem _
    simp at hmem
  | cons v rest ih =>
    intro hl hu hl' hu' hmem h
    simp only [convLoop] at h
    by_cases ha : convAllowed v = true
    · rw [if_neg (not_not_intro ha)] at h
      by_cases h2 : v = "upper_case"
      · rw [if_neg (by simp [h2] : ¬ (v == "lower_case") = true)] at h
        rw [if_pos (by simp [h2])] at h
        exact convLoop_mono_upper rest _ _ _ h
      · rcases List.mem_cons.mp hmem with hv | hv
        · exact absurd hv.symm h2
        · by_cases h1 : v = "lower_case"
          · rw [if_pos (by simp [h1])] at h
            exact ih _ _ _ _ hv h
          · rw [if_neg (by simp [h1]), if_neg (by simp [h2])] at h
            exact ih _ _ _ _ hv h
    · rw [if_pos (by simpa using ha)] at h
      simp at h

theorem convLoop_unknown : ∀ l hl hu (v : String), v ∈ l → convAllowed v = false →
    ∃ e, convLoop l hl hu = .error e := by
  intro l
  induction l with
  | nil =>
    intro hl hu v hmem _
    simp at hmem
  | cons w rest ih =>
    intro hl hu v hmem hbad
    by_cases ha : convAllowed w = true
    · have hvw : v ∈ rest := by
        rcases List.mem_cons.mp hmem with hv | hv
        · rw [hv] at hbad
          rw [hbad] at ha
          simp at ha
        · exact hv
      simp only [convLoop]
      rw [if_neg (not_not_intro ha)]
      by_cases h1 : w = "lower_case"
      · rw [if_pos (by simp [h1])]
        exact ih _ _ v hvw hbad
      · rw [if_neg (by simp [h1])]
        by_cases h2 : w = "upper_case"
        · rw [if_pos (by simp [h2])]
          exact ih _ _ v hvw hbad
        · rw [if_neg (by simp [h2])]
          exact ih _ _ v hvw hbad
    · refine ⟨.unknown w, ?_⟩
      simp only [convLoop]
      rw [if_pos (by simpa using ha)]

/-- Claim C10: a transform list containing both case directions, or any
unrecognised transform name, is rejected by `validatedConvs`, and the
rejection surfaces in `main`'s flag phase, before the reader over the
source is even constructed (the result is the flag-phase error for every
source byte stream). -/
theorem claim_C10 :
    (∀ l : List String, "lower_case" ∈ l → "upper_case" ∈ l →
      ∃ e, validatedConvs l = .error e) ∧
    (∀ (l : List String) (v : String), v ∈ l → convAllowed v = false →
      ∃ e, validatedConvs l = .error e) ∧
    (∀ (l : List String) (src : Bytes) (offset : Nat) (toPath : String)
      (stat : Option StatErr), (∃ e, validatedConvs l = .error e) →
      mainPhases l src offset toPath stat = .error .flags) := by
  refine ⟨?_, ?_, ?_⟩
  · intro l hlo hup
    have hne : l.length ≠ 0 := by
      intro h0
      rw [List.eq_nil_of_length_eq_zero h0] at hlo
      simp at hlo
    unfold validatedConvs
    rw [if_neg hne]
    rcases hcl : convLoop l false false with e | ⟨hl', hu'⟩
    · exact ⟨e, rfl⟩
    · have h1 := convLoop_mem_lower l false false hl' hu' hlo hcl
      have h2 := convLoop_mem_upper l false false hl' hu' hup hcl
      refine ⟨.conflict, ?_⟩
      simp [h1, h2]
  · intro l v hmem hbad
    have hne : l.length ≠ 0 := by
      intro h0
      rw [List.eq_nil_of_length_eq_zero h0] at hmem
      simp at hmem
    unfold validatedConvs
    rw [if_neg hne]
    obtain ⟨e, he⟩ := convLoop_unknown l false false v hmem hbad
    rw [he]
    exact ⟨e, rfl⟩
  · intro l src offset toPath stat ⟨e, he⟩
    unfold mainPhases
    rw [he]

/-- Witness for C10 at the concrete configurations of the spec's
scenarios: `lower_case,upper_case` is rejected, an unknown name is
rejected, and `main` stops in the flag phase for the conflicting list. -/
theorem claim_C10_witness :
    (∃ e, validatedConvs ["lower_case", "upper_case"] = .error e) ∧
    (∃ e, validatedConvs ["trim_spaces", "bad"] = .error e) ∧
    mainPhases ["lower_case", "upper_case"] [97] 0 "" none = .error .flags := by
  refine ⟨claim_C10.1 _ (by decide) (by decide),
    claim_C10.2.1 _ "bad" (by decide) (by decide),
    claim_C10.2.2 _ [97] 0 "" none (claim_C10.1 _ (by decide) (by decide))⟩

/-- Claim C2 (code bug): with the sink path already existing (`os.Stat`
returns a nil error), `createWriter` takes the intended failure branch but
returns that nil stat error, so writer construction reports no error (and
a nil writer, without creating or truncating the file), and `main`'s
writer phase does not abort: the phase model runs to completion instead of
stopping at the writer phase. -/
theorem claim_C2 :
    createWriter "out.txt" none = (GoWriter.nilWriter, none) ∧
    mainPhases [] [97] 0 "out.txt" none = .ok () := by
  constructor
  · rfl
  · rfl

/-- Claim C3 (amended): reader construction fails — with the end-of-file
error that `io.CopyN` returns — exactly when the `int64` reinterpretation
of the `uint64` skip count is positive and strictly exceeds the source
length.  A skip count that is at most the source length (including exact
equality) succeeds, leaving the source with the prefix removed.  A skip
count of `2^63` or more wraps to a negative `int64`, so `io.CopyN` copies
nothing and reports no error and construction succeeds without skipping
any byte. -/
theorem claim_C3 (src : Bytes) (offset : Nat) (hoff : offset < 2 ^ 64) :
    (offset < 2 ^ 63 → src.length < offset →
      createReaderSkip src offset = .error .eof) ∧
    (offset < 2 ^ 63 → offset ≤ src.length →
      createReaderSkip src offset = .ok (src.drop offset)) ∧
    (2 ^ 63 ≤ offset → createReaderSkip src offset = .ok src) := by
  refine ⟨?_, ?_, ?_⟩
  · intro hsm h
    unfold createReaderSkip copyN toInt64
    rw [if_pos hsm, if_neg (by omega), if_neg (by omega)]
  · intro hsm h
    unfold createReaderSkip copyN toInt64
    rw [if_pos hsm]
    by_cases h0 : offset = 0
    · subst h0
      simp
    · rw [if_neg (by omega), if_pos (by omega)]
      simp only [Int.toNat_natCast]
      rw [if_neg (by omega)]
  · intro hbig
    have htoi : toInt64 offset = (offset : Int) - 2 ^ 64 := by
      unfold toInt64
      rw [if_neg (by omega)]
    unfold createReaderSkip copyN
    rw [htoi]
    rw [if_pos (by push_cast; omega)]
    simp only
    rw [if_neg (by push_cast; omega)]

/-- Counterexample for C3 as stated: a skip count equal to the source
length (2 bytes of source, skip 2) does not fail — `io.CopyN` copies
exactly its requested count and returns a nil error, so construction
succeeds with an empty remaining stream.  A skip count of `2^63` (also
`≥` the source length) does not fail either: the `int64` cast wraps it
negative and construction succeeds with the source untouched. -/
theorem claim_C3_counterexample :
    ([97, 98] : Bytes).length ≤ 2 ∧
    createReaderSkip [97, 98] 2 = .ok [] ∧
    ([97, 98] : Bytes).length ≤ 2 ^ 63 ∧
    createReaderSkip [97, 98] (2 ^ 63) = .ok [97, 98] := by
  refine ⟨by decide, by rfl, by decide, by rfl⟩

/-- Witness for C3 at concrete inputs on both sides of the boundary and at
the wrap. -/
theorem claim_C3_witness :
    (([97, 98] : Bytes).length < 3 ∧ createReaderSkip [97, 98] 3 = .error .eof) ∧
    (1 ≤ ([97, 98] : Bytes).length ∧ createReaderSkip [97, 98] 1 = .ok [98]) ∧
    createReaderSkip [97, 98] (2 ^ 63) = .ok [97, 98] := by
  refine ⟨⟨by decide, (claim_C3 [97, 98] 3 (by decide)).1 (by decide) (by decide)⟩,
    ⟨by decide, ?_⟩,
    (claim_C3 [97, 98] (2 ^ 63) (by norm_num)).2.2 (by norm_num)⟩
  have h := (claim_C3 [97, 98] 1 (by decide)).2.1 (by decide) (by decide)
  simpa using h

/-- Claim C1 (amended): for every input (any upstream chunking) and every
caller-buffer size of at least one byte, fully draining the trim filter
yields exactly the whole-input trim transform `trimSpecFrom · false`:
leading whitespace is dropped, a trailing run of whitespace followed by no
further output is dropped, and every whitespace run between two
non-whitespace characters is emitted UNCHANGED — runs are never collapsed
to their first character; concretely a full drain on `"a\t\tb"` produces
`"a\t\tb"` (not `"a\tb"`), and on `" a\t\tb "` produces `"a\t\tb"`
(see the witness). -/
theorem claim_C1 (chunks : List Bytes) (req fD : Nat) (hreq : 1 ≤ req)
    (hfD : (trimSpecFrom chunks.flatten false).length + 1 ≤ fD) :
    trimDrain fD (mkTrim chunks) req =
      some (trimSpecFrom chunks.flatten false, GoErr.eof) := by
  have hso : trimStreamOut (mkTrim chunks) = trimSpecFrom chunks.flatten false := by
    simp [trimStreamOut, mkTrim]
  have hok : trimCarryOK (mkTrim chunks).buffer := by
    refine ⟨[], [], rfl, spaceSeg_nil, ?_⟩
    simp [stuckCarry, decodeRune]
  have h := trimDrain_spec fD (mkTrim chunks) req hreq hok (by rw [hso]; exact hfD)
  rw [hso] at h
  exact h

/-- Witness for C1: the universal drain theorem instantiated on the two
concrete scenarios — `"a\t\tb"` drains to `"a\t\tb"` and
`" a\t\tb "` drains to `"a\t\tb"`, with the hypotheses discharged by
evaluation. -/
theorem claim_C1_witness :
    (1 ≤ 4 ∧ (trimSpecFrom ([[97, 9, 9, 98]] : List Bytes).flatten false).length + 1 ≤ 6 ∧
      trimDrain 6 (mkTrim [[97, 9, 9, 98]]) 4 = some ([97, 9, 9, 98], GoErr.eof)) ∧
    (1 ≤ 6 ∧
      (trimSpecFrom ([[32, 97, 9, 9, 98, 32]] : List Bytes).flatten false).length + 1 ≤ 6 ∧
      trimDrain 6 (mkTrim [[32, 97, 9, 9, 98, 32]]) 6 =
        some ([97, 9, 9, 98], GoErr.eof)) := by
  refine ⟨⟨by decide, by decide, ?_⟩, ⟨by decide, by decide, ?_⟩⟩
  · exact (claim_C1 [[97, 9, 9, 98]] 4 6 (by decide) (by decide)).trans (by rfl)
  · exact (claim_C1 [[32, 97, 9, 9, 98, 32]] 6 6 (by decide) (by decide)).trans (by rfl)

/-- Counterexample for C1 as stated: draining the trim filter on
`"a\t\tb"` yields `"a\t\tb"`, not the collapsed `"a\tb"` the claim
requires — the scan loop appends `buffer[firstSpacePos : i+runeSize]`,
which contains the whole internal whitespace run. -/
theorem claim_C1_counterexample :
    trimDrain 3 (mkTrim [[97, 9, 9, 98]]) 4 = some ([97, 9, 9, 98], GoErr.eof) ∧
    ([97, 9, 9, 98] : Bytes) ≠ [97, 9, 98] := by
  constructor
  · rfl
  · decide

/-- Claim C4 (amended): the carry-buffer invariant holds for the
case-folding filter in the form the code actually maintains: after any
completed fill request the carry starts with nothing its scan loop can
consume — it is empty, undecodable, or decodes to U+FFFD (which the loop
also refuses, since it tests the decoded rune against `utf8.RuneError`).
The whitespace-trim filter does not satisfy the claimed invariant: its
carry may retain a fully-decodable pending whitespace run (see the
counterexample). -/
theorem claim_C4 (upB loB : Nat → Bytes) (f : Nat) (cr : CaseReader) (req : Nat)
    (out : Bytes) (err : Option GoErr) (cr' : CaseReader)
    (h : caseRead upB loB f cr req = some (out, err, cr'))
    (hst : stuckCarry cr.buffer = true) : stuckCarry cr'.buffer = true :=
  caseRead_stuck upB loB f cr req out err cr' h hst

/-- Witness for C4: a concrete fill request whose resulting carry is again
stuck. -/
theorem claim_C4_witness :
    stuckCarry (CaseReader.mk (Source.mk [] GoErr.eof) true [] []).buffer = true :=
  claim_C4 toUpperBytes toLowerBytes 3 (mkCase [[97]] true) 1 [65] none
    (CaseReader.mk (Source.mk [] GoErr.eof) true [] []) (by decide) (by decide)

/-- Counterexample for C4 as stated: (1) a trim fill cycle on `"a "` ends
with the fully-decodable space `[32]` left unprocessed in the carry
buffer; (2) a case-folding fill cycle on the valid three-byte encoding of
U+FFFD ends with those fully-decodable bytes left in the carry forever. -/
theorem claim_C4_counterexample :
    trimRead 3 (mkTrim [[97, 32]]) 2 =
      some ([97], none, TrimReader.mk (Source.mk [] GoErr.eof) [32] [] true) ∧
    decodeRune [32] = (32, 1) ∧ (32 : Nat) ≠ 0xFFFD ∧
    caseRead toUpperBytes toLowerBytes 5 (mkCase [[239, 191, 189]] true) 3 =
      some ([], some GoErr.eof,
        CaseReader.mk (Source.mk [] GoErr.eof) true [] [239, 191, 189]) ∧
    (decodeRune [239, 191, 189]).2 = 3 ∧ ([239, 191, 189] : Bytes).length = 3 := by
  refine ⟨by decide, by decide, by decide, by decide, by decide, by decide⟩

/-- Claim C5: for every completed fill request of the case-folding filter,
an upstream error is returned unchanged (it is the scripted source's
terminal error, with no bytes delivered alongside it), and no bytes are
dropped: the bytes consumed from upstream split into a fully-decoded
prefix — whose transform accounts exactly for the delivered output plus
the remaining pending buffer — and a suffix retained in the carry buffer.
End-of-stream is only surfaced after pending output has been flushed:
with pending bytes present the request returns no error. -/
theorem claim_C5 (upB loB : Nat → Bytes) (f : Nat) (cr : CaseReader) (req : Nat)
    (out : Bytes) (err : Option GoErr) (cr' : CaseReader)
    (h : caseRead upB loB f cr req = some (out, err, cr')) :
    (∃ consumed processed : Bytes,
      cr.reader.chunks.flatten = consumed ++ cr'.reader.chunks.flatten ∧
      cr.buffer ++ consumed = processed ++ cr'.buffer ∧
      (decodeAll processed).2 = [] ∧
      out ++ cr'.mapped =
        cr.mapped ++ caseMapJoin upB loB cr.toUpper (decodeAll processed).1) ∧
    (∀ e, err = some e → e = cr.reader.final ∧ out = []) ∧
    (cr.mapped ≠ [] → err = none) := by
  obtain ⟨-, -, hcons⟩ := caseRead_conserve upB loB f cr req out err cr' h
  refine ⟨hcons, ?_, ?_⟩
  · intro e he
    subst he
    obtain ⟨h1, h2, -, -, -⟩ := caseRead_err upB loB f cr req out e cr' h
    exact ⟨h1, h2⟩
  · intro hm
    cases f with
    | zero => simp [caseRead] at h
    | succ f =>
      simp only [caseRead,
        if_pos (by simpa [List.length_eq_zero] using hm : cr.mapped.length ≠ 0)] at h
      simp only [Option.some.injEq, Prod.mk.injEq] at h
      exact h.2.1.symm

/-- Witness for C5 at a concrete fill request (`"He"` under upper-case,
caller buffer of 2). -/
theorem claim_C5_witness :
    (∃ consumed processed : Bytes,
      (mkCase [[72, 101]] true).reader.chunks.flatten =
        consumed ++ (CaseReader.mk (Source.mk [] GoErr.eof) true [] []).reader.chunks.flatten ∧
      (mkCase [[72, 101]] true).buffer ++ consumed =
        processed ++ (CaseReader.mk (Source.mk [] GoErr.eof) true [] []).buffer ∧
      (decodeAll processed).2 = [] ∧
      [72, 69] ++ (CaseReader.mk (Source.mk [] GoErr.eof) true [] []).mapped =
        (mkCase [[72, 101]] true).mapped ++
          caseMapJoin toUpperBytes toLowerBytes (mkCase [[72, 101]] true).toUpper
            (decodeAll processed).1) ∧
    (∀ e, (none : Option GoErr) = some e →
      e = (mkCase [[72, 101]] true).reader.final ∧ ([72, 69] : Bytes) = []) ∧
    ((mkCase [[72, 101]] true).mapped ≠ [] → (none : Option GoErr) = none) :=
  claim_C5 toUpperBytes toLowerBytes 3 (mkCase [[72, 101]] true) 2 [72, 69] none
    (CaseReader.mk (Source.mk [] GoErr.eof) true [] []) (by decide)

/-- Claim C6 (amended): for every input that decodes completely (valid
UTF-8 containing no literal U+FFFD character), and every caller-buffer
size of at least one byte, fully draining the case-folding filter yields
exactly the whole-input case transform, independent of the caller's
buffer size.  (For inputs with an undecodable byte or a literal U+FFFD the
filter drops the tail from that point on, diverging from the whole-input
transform — see the counterexample.) -/
theorem claim_C6 (upB loB : Nat → Bytes) (t : Bool) (input : Bytes) (req fD : Nat)
    (h1 : 1 ≤ req) (h2 : (decodeAll input).2 = [])
    (h3 : (streamOut upB loB (mkCase [input] t)).length + 1 ≤ fD) :
    caseDrain upB loB fD (mkCase [input] t) req =
      some (specCaseFold upB loB t input, GoErr.eof) := by
  have hd := caseDrain_spec upB loB fD (mkCase [input] t) req h1 rfl h3
  have hs : streamOut upB loB (mkCase [input] t) = specCaseFold upB loB t input := by
    rw [specCaseFold_eq upB loB t input h2]
    simp [streamOut, mkCase]
  rw [hd, hs]
  rfl

/-- Counterexample for C6 as stated: for the byte input `0xFF 'A'` (an
invalid byte followed by a decodable letter) the drained output is empty,
while the whole-input case transform maps the invalid byte to U+FFFD and
upper-cases the letter. -/
theorem claim_C6_counterexample :
    caseDrain toUpperBytes toLowerBytes 2 (mkCase [[255, 65]] true) 2 =
      some ([], GoErr.eof) ∧
    specCaseFold toUpperBytes toLowerBytes true [255, 65] = [239, 191, 189, 65] ∧
    ([] : Bytes) ≠ [239, 191, 189, 65] := by
  refine ⟨by decide, by decide, by decide⟩

/-- Witness for C6: `"HeLLo"` drains to `"HELLO"` under upper-case with
1-byte caller reads, and to `"hello"` under lower-case with 5-byte
reads. -/
theorem claim_C6_witness :
    caseDrain toUpperBytes toLowerBytes 7 (mkCase [[72, 101, 76, 76, 111]] true) 1 =
      some ([72, 69, 76, 76, 79], GoErr.eof) ∧
    caseDrain toUpperBytes toLowerBytes 7 (mkCase [[72, 101, 76, 76, 111]] false) 5 =
      some ([104, 101, 108, 108, 111], GoErr.eof) := by
  constructor
  · exact (claim_C6 toUpperBytes toLowerBytes true [72, 101, 76, 76, 111] 1 7
      (by decide) (by decide) (by decide)).trans (by decide)
  · exact (claim_C6 toUpperBytes toLowerBytes false [72, 101, 76, 76, 111] 5 7
      (by decide) (by decide) (by decide)).trans (by decide)

/-- Claim C7: the delivery contract of both filters.  Every completed fill
request reports at most the caller's buffer capacity (the reported count
always equals the number of bytes the model writes, `out.length`).  When
pending output is present: a caller buffer smaller than pending output is
filled completely and the remainder retained; otherwise all pending
output is delivered, the shorter length is reported, and the pending
buffer empties. -/
theorem claim_C7 :
    (∀ (upB loB : Nat → Bytes) (f : Nat) (cr : CaseReader) (req : Nat) (out : Bytes)
      (err : Option GoErr) (cr' : CaseReader),
      caseRead upB loB f cr req = some (out, err, cr') →
      out.length ≤ req ∧
      (cr.mapped ≠ [] →
        out = cr.mapped.take (min req cr.mapped.length) ∧
        cr'.mapped = cr.mapped.drop (min req cr.mapped.length) ∧
        (req < cr.mapped.length → out.length = req) ∧
        (cr.mapped.length ≤ req → out = cr.mapped ∧ cr'.mapped = []))) ∧
    (∀ (f : Nat) (tr : TrimReader) (req : Nat) (out : Bytes)
      (err : Option GoErr) (tr' : TrimReader),
      trimRead f tr req = some (out, err, tr') →
      out.length ≤ req ∧
      (tr.trimmed ≠ [] →
        out = tr.trimmed.take (min req tr.trimmed.length) ∧
        tr'.trimmed = tr.trimmed.drop (min req tr.trimmed.length) ∧
        (req < tr.trimmed.length → out.length = req) ∧
        (tr.trimmed.length ≤ req → out = tr.trimmed ∧ tr'.trimmed = []))) := by
  constructor
  · intro upB loB f cr req out err cr' h
    refine ⟨caseRead_len upB loB f cr req out err cr' h, ?_⟩
    intro hm
    cases f with
    | zero => simp [caseRead] at h
    | succ f =>
      simp only [caseRead,
        if_pos (by simpa [List.length_eq_zero] using hm : cr.mapped.length ≠ 0)] at h
      simp only [Option.some.injEq, Prod.mk.injEq] at h
      obtain ⟨h1, _, h3⟩ := h
      subst h3
      refine ⟨?_, ?_, ?_, ?_⟩
      · rw [← h1]
        simp [copyFromChecked]
      · simp [copyFromChecked]
      · intro hlt
        rw [← h1]
        simp only [copyFromChecked, List.length_take]
        omega
      · intro hle
        have hmin : min req cr.mapped.length = cr.mapped.length := by omega
        constructor
        · rw [← h1]
          simp [copyFromChecked, hmin]
        · simp [copyFromChecked, hmin]
  · intro f tr req out err tr' h
    refine ⟨trimRead_len f tr req out err tr' h, ?_⟩
    intro hm
    cases f with
    | zero => simp [trimRead] at h
    | succ f =>
      simp only [trimRead,
        if_pos (by simpa [List.length_eq_zero] using hm : tr.trimmed.length ≠ 0)] at h
      simp only [Option.some.injEq, Prod.mk.injEq] at h
      obtain ⟨h1, _, h3⟩ := h
      subst h3
      refine ⟨?_, ?_, ?_, ?_⟩
      · rw [← h1]
        simp [copyFromChecked]
      · simp [copyFromChecked]
      · intro hlt
        rw [← h1]
        simp only [copyFromChecked, List.length_take]
        omega
      · intro hle
        have hmin : min req tr.trimmed.length = tr.trimmed.length := by omega
        constructor
        · rw [← h1]
          simp [copyFromChecked, hmin]
        · simp [copyFromChecked, hmin]

/-- Witness for C7: concrete deliveries with three pending bytes and a
two-byte caller buffer, for both filters. -/
theorem claim_C7_witness :
    (([10, 20] : Bytes).length ≤ 2 ∧
      ((CaseReader.mk (Source.mk [] GoErr.eof) true [10, 20, 30] []).mapped ≠ [] →
        ([10, 20] : Bytes) =
          (CaseReader.mk (Source.mk [] GoErr.eof) true [10, 20, 30] []).mapped.take
            (min 2 (CaseReader.mk (Source.mk [] GoErr.eof) true [10, 20, 30] []).mapped.length) ∧
        (CaseReader.mk (Source.mk [] GoErr.eof) true [30] []).mapped =
          (CaseReader.mk (Source.mk [] GoErr.eof) true [10, 20, 30] []).mapped.drop
            (min 2 (CaseReader.mk (Source.mk [] GoErr.eof) true [10, 20, 30] []).mapped.length) ∧
        (2 < (CaseReader.mk (Source.mk [] GoErr.eof) true [10, 20, 30] []).mapped.length →
          ([10, 20] : Bytes).length = 2) ∧
        ((CaseReader.mk (Source.mk [] GoErr.eof) true [10, 20, 30] []).mapped.length ≤ 2 →
          ([10, 20] : Bytes) =
            (CaseReader.mk (Source.mk [] GoErr.eof) true [10, 20, 30] []).mapped ∧
          (CaseReader.mk (Source.mk [] GoErr.eof) true [30] []).mapped = []))) ∧
    (([10, 20] : Bytes).length ≤ 2 ∧
      ((TrimReader.mk (Source.mk [] GoErr.eof) [] [10, 20, 30] true).trimmed ≠ [] →
        ([10, 20] : Bytes) =
          (TrimReader.mk (Source.mk [] GoErr.eof) [] [10, 20, 30] true).trimmed.take
            (min 2 (TrimReader.mk (Source.mk [] GoErr.eof) [] [10, 20, 30] true).trimmed.length) ∧
        (TrimReader.mk (Source.mk [] GoErr.eof) [] [30] true).trimmed =
          (TrimReader.mk (Source.mk [] GoErr.eof) [] [10, 20, 30] true).trimmed.drop
            (min 2 (TrimReader.mk (Source.mk [] GoErr.eof) [] [10, 20, 30] true).trimmed.length) ∧
        (2 < (TrimReader.mk (Source.mk [] GoErr.eof) [] [10, 20, 30] true).trimmed.length →
          ([10, 20] : Bytes).length = 2) ∧
        ((TrimReader.mk (Source.mk [] GoErr.eof) [] [10, 20, 30] true).trimmed.length ≤ 2 →
          ([10, 20] : Bytes) =
            (TrimReader.mk (Source.mk [] GoErr.eof) [] [10, 20, 30] true).trimmed ∧
          (TrimReader.mk (Source.mk [] GoErr.eof) [] [30] true).trimmed = []))) :=
  ⟨claim_C7.1 toUpperBytes toLowerBytes 1
      (CaseReader.mk (Source.mk [] GoErr.eof) true [10, 20, 30] []) 2 [10, 20] none
      (CaseReader.mk (Source.mk [] GoErr.eof) true [30] []) (by decide),
    claim_C7.2 1 (TrimReader.mk (Source.mk [] GoErr.eof) [] [10, 20, 30] true) 2
      [10, 20] none (TrimReader.mk (Source.mk [] GoErr.eof) [] [30] true) (by decide)⟩

/-- Claim C8: feeding any byte stream to the case-folding filter split
into two upstream reads at any split point produces the same fully
drained output as feeding it in a single upstream read (for any
caller-buffer size of at least one byte); in particular a multi-byte
character split at a buffer boundary is not corrupted. -/
theorem claim_C8 (upB loB : Nat → Bytes) (t : Bool) (bs : Bytes) (k req : Nat)
    (h1 : 1 ≤ req) :
    caseDrain upB loB
      ((streamOut upB loB (mkCase [bs.take k, bs.drop k] t)).length + 1)
      (mkCase [bs.take k, bs.drop k] t) req =
    caseDrain upB loB ((streamOut upB loB (mkCase [bs] t)).length + 1)
      (mkCase [bs] t) req := by
  have hA := caseDrain_spec upB loB _ (mkCase [bs.take k, bs.drop k] t) req h1 rfl
    (le_refl _)
  have hB := caseDrain_spec upB loB _ (mkCase [bs] t) req h1 rfl (le_refl _)
  rw [hA, hB]
  have hs : streamOut upB loB (mkCase [bs.take k, bs.drop k] t) =
      streamOut upB loB (mkCase [bs] t) := by
    simp [streamOut, mkCase, List.take_append_drop]
  rw [hs]
  rfl

/-- Witness for C8: the three-byte character U+4E00 (a code point with no
case mapping, on which `toUpperBytes` coincides with Go's
`strings.ToUpper`) split between two upstream reads drains identically to
the unsplit feed, with 1-byte caller reads. -/
theorem claim_C8_witness :
    caseDrain toUpperBytes toLowerBytes
      ((streamOut toUpperBytes toLowerBytes
        (mkCase [[0xE4, 0xB8, 0x80].take 1, [0xE4, 0xB8, 0x80].drop 1] true)).length + 1)
      (mkCase [[0xE4, 0xB8, 0x80].take 1, [0xE4, 0xB8, 0x80].drop 1] true) 1 =
    caseDrain toUpperBytes toLowerBytes
      ((streamOut toUpperBytes toLowerBytes
        (mkCase [[0xE4, 0xB8, 0x80]] true)).length + 1)
      (mkCase [[0xE4, 0xB8, 0x80]] true) 1 ∧
    caseDrain toUpperBytes toLowerBytes
      ((streamOut toUpperBytes toLowerBytes
        (mkCase [[0xE4, 0xB8, 0x80]] true)).length + 1)
      (mkCase [[0xE4, 0xB8, 0x80]] true) 1 = some ([0xE4, 0xB8, 0x80], GoErr.eof) :=
  ⟨claim_C8 toUpperBytes toLowerBytes true [0xE4, 0xB8, 0x80] 1 1 (by decide),
    by decide⟩

/-- Claim C9: an input stream that decodes entirely to whitespace
characters, of any length and any upstream chunking, drains through the
trim filter to an empty output stream terminated by end-of-stream. -/
theorem claim_C9 (chunks : List Bytes) (req fD : Nat) (h1 : 1 ≤ req) (h2 : 1 ≤ fD)
    (_hv : (decodeAll chunks.flatten).2 = [])
    (hws : ∀ r ∈ (decodeAll chunks.flatten).1, isSpace r = true) :
    trimDrain fD (mkTrim chunks) req = some ([], GoErr.eof) := by
  have hwsR : wsRunes ((mkTrim chunks).buffer ++ (mkTrim chunks).reader.chunks.flatten) := by
    intro r hr
    apply hws
    simpa [mkTrim] using hr
  exact trimDrain_ws fD (mkTrim chunks) req h1 h2 rfl hwsR

/-- Witness for C9: a whitespace-only stream (space, U+2000 split across
two upstream chunks, tab) drains to empty output. -/
theorem claim_C9_witness :
    trimDrain 1 (mkTrim [[32, 226, 128], [128, 9]]) 1 = some ([], GoErr.eof) :=
  claim_C9 [[32, 226, 128], [128, 9]] 1 1 (by decide) (by decide) (by decide)
    (by decide)
